import Mathlib

/-!
Verification of the SIRE 2.0 report tool's transformation core (sire_app.py).

The development shallowly embeds the two components of the pipeline:

* the Ingest Normalizer: the Process File handler's staged JSON repair and
  the strict JSON parse it delegates to (`json.loads` on text input), and
* the Report Extractor: `format_date`, `generate_question_numbers` and
  `process_inspection_data`.

Python's dynamic values are modelled by the `Json` type below; dynamic
attribute/index errors (`KeyError`, `TypeError`, `AttributeError`) are
modelled by `Except PyErr`.  Python `json.loads` maps JSON `null` to `None`,
so the embedding identifies the two: `Json.null` plays both roles (this
matters for `generate_question_numbers`, whose `last_id` starts as `None`).

Deliberate modelling boundaries, which no theorem below depends on:
Python's cross-type numeric equality (`1 == 1.0 == True`), `NaN`'s
self-inequality, unhashable dict keys, and surrogate-pair combination in
`\uXXXX` escapes are not reproduced; JSON numbers are kept in exact decimal
form (sign, integer digits, fraction digits, exponent lexeme) rather than
as floats, so two syntactically different lexemes denote different trees.
-/

namespace Sire

/-- A JSON number literal in exact decimal form, plus the three non-finite
constants Python's `json.loads` accepts by default (`NaN`, `Infinity`,
`-Infinity`).  `ip` holds the integer-part digits, `fr` the fraction digits
(empty when no fraction), `ex` the exponent part including its sign (empty
when no exponent). -/
inductive JNum where
  | fin (neg : Bool) (ip : String) (fr : String) (ex : String)
  | nan
  | inf
  | neginf
deriving DecidableEq, Repr

/- Python-side value of a parsed JSON document.  Arrays and objects use the
mutual list types `JArr`/`JObj` so that decidable equality can be derived.
Objects model Python dicts: insertion-ordered association lists. -/
mutual
/-- Parsed JSON value / Python runtime value. -/
inductive Json where
  | null
  | bool (b : Bool)
  | num (n : JNum)
  | str (s : String)
  | arr (xs : JArr)
  | obj (kvs : JObj)
deriving DecidableEq, Repr

/-- JSON array spine. -/
inductive JArr where
  | nil
  | cons (hd : Json) (tl : JArr)
deriving DecidableEq, Repr

/-- JSON object spine (Python dict: insertion-ordered key/value pairs). -/
inductive JObj where
  | nil
  | cons (k : String) (v : Json) (tl : JObj)
deriving DecidableEq, Repr
end

/-- Elements of a JSON array, as a Lean list. -/
def JArr.toList : JArr → List Json
  | .nil => []
  | .cons h t => h :: t.toList

/-- Build a JSON array from a Lean list. -/
def JArr.ofList : List Json → JArr
  | [] => .nil
  | h :: t => .cons h (JArr.ofList t)

/-- Key list of an object, in insertion order. -/
def JObj.keys : JObj → List String
  | .nil => []
  | .cons k _ t => k :: t.keys

/-- Dict lookup (`d[k]` / `d.get(k)` success case). -/
def JObj.find (key : String) : JObj → Option Json
  | .nil => none
  | .cons k v t => if k = key then some v else JObj.find key t

/-- Build an object from a key/value list (keys assumed distinct where used). -/
def JObj.ofList : List (String × Json) → JObj
  | [] => .nil
  | (k, v) :: t => .cons k v (JObj.ofList t)

/-- Convenience constructor mirroring a JSON object literal. -/
def Json.mkObj (kvs : List (String × Json)) : Json := .obj (JObj.ofList kvs)

/-- Convenience constructor mirroring a JSON array literal. -/
def Json.mkArr (xs : List Json) : Json := .arr (JArr.ofList xs)

/-- A finite JSON number is numerically zero iff every mantissa digit is `0`
(the exponent is irrelevant); `NaN`/`Infinity` are nonzero. -/
def JNum.isZero : JNum → Bool
  | .fin _ ip fr _ => ip.toList.all (· = '0') && fr.toList.all (· = '0')
  | _ => false

/-- Python truthiness of a parsed JSON value: `None`, `False`, numeric zero,
`""`, `[]` and `{}` are falsy. -/
def pyTruthy : Json → Bool
  | .null => false
  | .bool b => b
  | .num n => !n.isZero
  | .str s => !(s = "")
  | .arr a => !(a = .nil)
  | .obj o => !(o = .nil)

/-! ### Dynamic operations of the Python runtime used by the extractor -/

/-- The exception classes the traversal can raise. -/
inductive PyErr where
  | typeError
  | keyError
  | attributeError
deriving DecidableEq, Repr

/-- `x.get(k, dflt)`: dict lookup with default; `AttributeError` when the
receiver is not a dict. -/
def pyGet (j : Json) (k : String) (dflt : Json) : Except PyErr Json :=
  match j with
  | .obj kvs => .ok ((kvs.find k).getD dflt)
  | _ => .error .attributeError

/-- `x[k]` with a string key: `KeyError` when absent from a dict,
`TypeError` when the receiver is not a dict. -/
def pyItem (j : Json) (k : String) : Except PyErr Json :=
  match j with
  | .obj kvs =>
    match kvs.find k with
    | some v => .ok v
    | none => .error .keyError
  | _ => .error .typeError

/-- `for x in j`: arrays yield elements, strings yield one-character strings,
dicts yield their keys; other values raise `TypeError`. -/
def pyIter (j : Json) : Except PyErr (List Json) :=
  match j with
  | .arr a => .ok a.toList
  | .str s => .ok (s.toList.map (fun c => Json.str (String.mk [c])))
  | .obj kvs => .ok (kvs.keys.map Json.str)
  | _ => .error .typeError

/-- Substring test on character lists, structural on the scanned list.
`headMatches pat cs` holds when `pat` is an initial segment of `cs`. -/
def headMatches : List Char → List Char → Bool
  | [], _ => true
  | _ :: _, [] => false
  | p :: ps, c :: cs => p = c && headMatches ps cs

/-- `pat` occurs as a contiguous substring of `s`. -/
def hasSubL (s pat : List Char) : Bool :=
  if headMatches pat s then true
  else
    match s with
    | [] => false
    | _ :: rest => hasSubL rest pat

/-- Python's `pat in s` for strings. -/
def strContains (s pat : String) : Bool := hasSubL s.toList pat.toList

/-- Python's `needle in j` for a string needle: substring test on strings,
element membership on lists, key membership on dicts, `TypeError` otherwise. -/
def pyInJson (needle : String) (j : Json) : Except PyErr Bool :=
  match j with
  | .str s => .ok (strContains s needle)
  | .arr a => .ok (a.toList.contains (Json.str needle))
  | .obj kvs => .ok (kvs.keys.contains needle)
  | _ => .error .typeError

/-! ### `format_date` (sire_app.py lines 96-107)

`datetime.strptime(u, "%Y-%m-%dT%H:%M:%S")` is modelled after CPython's
`_strptime` regular expressions: `%Y` is exactly four digits; `%m`, `%d`,
`%H`, `%M`, `%S` are one or two digits with the regex value ranges
(month 1-12, day 1-31, hour 0-23, minute 0-59, second 0-61); the whole
string must be consumed.  The `datetime` constructor then validates the
calendar day against the month length and rejects leap seconds, so the
net effect is `second ≤ 59` and `day ≤ daysInMonth`.  `strftime` output is
zero-padded to the field widths of `%Y-%m-%d %H:%M`. -/

/-- ASCII digit test. -/
def isDig (c : Char) : Bool := '0' ≤ c && c ≤ '9'

/-- Numeric value of an ASCII digit. -/
def digVal (c : Char) : Nat := c.toNat - '0'.toNat

/-- Consume one or two digits followed by the separator `sep` (also
consumed), as the `strptime` regex does for `%m`/`%d`/`%H`/`%M`.  Taking two
digits greedily agrees with the regex alternation because the separator is
never a digit. -/
def grab2 (sep : Char) : List Char → Option (Nat × List Char)
  | [] => none
  | a :: rest =>
    if isDig a then
      match rest with
      | [] => none
      | b :: rest2 =>
        if isDig b then
          match rest2 with
          | [] => none
          | s :: rest3 => if s = sep then some (10 * digVal a + digVal b, rest3) else none
        else if b = sep then some (digVal a, rest2) else none
    else none

/-- Consume one or two final digits ending the string (the `%S` field). -/
def grabEnd : List Char → Option Nat
  | [a] => if isDig a then some (digVal a) else none
  | [a, b] => if isDig a && isDig b then some (10 * digVal a + digVal b) else none
  | _ => none

/-- Gregorian leap-year rule used by `datetime`. -/
def isLeap (y : Nat) : Bool := y % 4 = 0 && (!(y % 100 = 0) || y % 400 = 0)

/-- Days in a month, as validated by the `datetime` constructor. -/
def daysInMonth (y m : Nat) : Nat :=
  if m = 2 then (if isLeap y then 29 else 28)
  else if m = 4 ∨ m = 6 ∨ m = 9 ∨ m = 11 then 30
  else 31

/-- A validated timestamp (seconds are parsed, validated and discarded since
the output format does not show them). -/
structure DT where
  year : Nat
  month : Nat
  day : Nat
  hour : Nat
  minute : Nat
deriving DecidableEq, Repr

/-- `datetime.strptime(s, "%Y-%m-%dT%H:%M:%S")` followed by the `datetime`
constructor's validation; `none` models the `ValueError` path. -/
def parseTimestamp (s : String) : Option DT :=
  match s.toList with
  | y1 :: y2 :: y3 :: y4 :: '-' :: rest =>
    if isDig y1 && isDig y2 && isDig y3 && isDig y4 then
      let y := ((digVal y1 * 10 + digVal y2) * 10 + digVal y3) * 10 + digVal y4
      match grab2 '-' rest with
      | none => none
      | some (mo, r1) =>
      match grab2 'T' r1 with
      | none => none
      | some (d, r2) =>
      match grab2 ':' r2 with
      | none => none
      | some (h, r3) =>
      match grab2 ':' r3 with
      | none => none
      | some (mi, r4) =>
      match grabEnd r4 with
      | none => none
      | some sec =>
        if 1 ≤ y ∧ 1 ≤ mo ∧ mo ≤ 12 ∧ 1 ≤ d ∧ d ≤ daysInMonth y mo ∧
            h ≤ 23 ∧ mi ≤ 59 ∧ sec ≤ 59 then
          some ⟨y, mo, d, h, mi⟩
        else none
    else none
  | _ => none

/-- Zero-pad to two digits. -/
def pad2 (n : Nat) : String := if n < 10 then "0" ++ toString n else toString n

/-- Zero-pad to four digits. -/
def pad4 (n : Nat) : String :=
  if n < 10 then "000" ++ toString n
  else if n < 100 then "00" ++ toString n
  else if n < 1000 then "0" ++ toString n
  else toString n

/-- `dt.strftime("%Y-%m-%d %H:%M")`. -/
def renderDT (t : DT) : String :=
  pad4 t.year ++ "-" ++ pad2 t.month ++ "-" ++ pad2 t.day ++ " " ++
    pad2 t.hour ++ ":" ++ pad2 t.minute

/-- Characters before the first `.`, or the whole string when there is none
(`date_str.split(".")[0]`). -/
def takeUntilDot : List Char → List Char
  | [] => []
  | c :: rest => if c = '.' then [] else c :: takeUntilDot rest

/-- String wrapper for `takeUntilDot`. -/
def beforeDot (s : String) : String := String.mk (takeUntilDot s.toList)

/-- `format_date` (sire_app.py lines 96-107): empty input yields `""`;
inputs containing `T` are re-rendered when the part before the first `.`
parses as `%Y-%m-%dT%H:%M:%S`; every failure path returns the input. -/
def format_date (s : String) : String :=
  if s = "" then ""
  else if s.toList.contains 'T' then
    match parseTimestamp (beforeDot s) with
    | some dt => renderDT dt
    | none => s
  else s

/-- `format_date` applied to an arbitrary runtime value.  Falsy values hit
the `if not date_str` branch and return `""`; truthy non-strings make the
membership test or `.split` raise inside `format_date`'s own `try`, which
catches every exception and returns the input unchanged. -/
def formatDateJson (j : Json) : Json :=
  if !pyTruthy j then .str ""
  else
    match j with
    | .str s => .str (format_date s)
    | _ => j

/-! ### Metadata extraction (sire_app.py lines 136-147) -/

/-- Lookup in the metadata table being built (a Python dict keyed by the
source `key` values). -/
def tblFind (k : Json) : List (Json × Json) → Option Json
  | [] => none
  | p :: rest => if p.1 = k then some p.2 else tblFind k rest

/-- `metadata[key] = value` on an insertion-ordered dict: a later write to an
existing key overwrites the value in place, a new key is appended. -/
def dictInsert (kvs : List (Json × Json)) (k v : Json) : List (Json × Json) :=
  if (tblFind k kvs).isSome then
    kvs.map (fun p => if p.1 = k then (p.1, v) else p)
  else kvs ++ [(k, v)]

/-- Body of the `for item in inspection_data.get('metaData', [])` loop:
`item['key']`, `item['value']`, the date-key test
`any(x in key for x in ['DATE', 'DATETIME'])` (short-circuiting), optional
date formatting, then the dict write. -/
def metaStep (acc : List (Json × Json)) (item : Json) : Except PyErr (List (Json × Json)) :=
  match pyItem item "key" with
  | .error e => .error e
  | .ok key =>
  match pyItem item "value" with
  | .error e => .error e
  | .ok value =>
  match pyInJson "DATE" key with
  | .error e => .error e
  | .ok b1 =>
  match (if b1 then .ok true else pyInJson "DATETIME" key : Except PyErr Bool) with
  | .error e => .error e
  | .ok isDate =>
    .ok (dictInsert acc key (if isDate then formatDateJson value else value))

/-- The metadata loop itself. -/
def metaLoop (acc : List (Json × Json)) : List Json → Except PyErr (List (Json × Json))
  | [] => .ok acc
  | item :: rest =>
    match metaStep acc item with
    | .ok acc2 => metaLoop acc2 rest
    | .error e => .error e

/-! ### Comment collection (sire_app.py lines 149-163) -/

/-- One entry of the intermediate `comments` list: the dict
`{'id': template_id, 'inspector_comment': ..., 'operator_comment': ...,
'date': format_date(...)}`. -/
structure RawComment where
  id : Json
  inspector : Json
  operator : Json
  date : Json
deriving DecidableEq, Repr

/-- Body of the `for op_comment in observation.get('initialOperatorComments', [])`
loop: build one comment record. -/
def opStep (tid obs : Json) (acc : List RawComment) (op : Json) :
    Except PyErr (List RawComment) :=
  match pyGet obs "comments" (.str "") with
  | .error e => .error e
  | .ok insp =>
  match pyGet op "comments" (.str "") with
  | .error e => .error e
  | .ok opc =>
  match pyGet op "commentDate" (.str "") with
  | .error e => .error e
  | .ok cd => .ok (acc ++ [⟨tid, insp, opc, formatDateJson cd⟩])

/-- Loop over operator comments. -/
def opLoop (tid obs : Json) (acc : List RawComment) :
    List Json → Except PyErr (List RawComment)
  | [] => .ok acc
  | op :: rest =>
    match opStep tid obs acc op with
    | .ok acc2 => opLoop tid obs acc2 rest
    | .error e => .error e

/-- Body of the observations loop: `if observation.get('comments'):` guards
the operator-comment loop. -/
def obsStep (tid : Json) (acc : List RawComment) (obs : Json) :
    Except PyErr (List RawComment) :=
  match pyGet obs "comments" Json.null with
  | .error e => .error e
  | .ok c =>
    if pyTruthy c then
      match pyGet obs "initialOperatorComments" (Json.mkArr []) with
      | .error e => .error e
      | .ok opsJ =>
      match pyIter opsJ with
      | .error e => .error e
      | .ok ops => opLoop tid obs acc ops
    else .ok acc

/-- Loop over observations. -/
def obsLoop (tid : Json) (acc : List RawComment) :
    List Json → Except PyErr (List RawComment)
  | [] => .ok acc
  | obs :: rest =>
    match obsStep tid acc obs with
    | .ok acc2 => obsLoop tid acc2 rest
    | .error e => .error e

/-- Body of the responses loop. -/
def respStep (tid : Json) (acc : List RawComment) (resp : Json) :
    Except PyErr (List RawComment) :=
  match pyGet resp "observations" (Json.mkArr []) with
  | .error e => .error e
  | .ok obssJ =>
  match pyIter obssJ with
  | .error e => .error e
  | .ok obss => obsLoop tid acc obss

/-- Loop over complex responses. -/
def respLoop (tid : Json) (acc : List RawComment) :
    List Json → Except PyErr (List RawComment)
  | [] => .ok acc
  | resp :: rest =>
    match respStep tid acc resp with
    | .ok acc2 => respLoop tid acc2 rest
    | .error e => .error e

/-- Body of the questions loop: fetch `templateQuestionId` (default `''`)
then walk the responses. -/
def qStep (acc : List RawComment) (q : Json) : Except PyErr (List RawComment) :=
  match pyGet q "templateQuestionId" (.str "") with
  | .error e => .error e
  | .ok tid =>
  match pyGet q "complexResponses" (Json.mkArr []) with
  | .error e => .error e
  | .ok respsJ =>
  match pyIter respsJ with
  | .error e => .error e
  | .ok resps => respLoop tid acc resps

/-- Loop over questions. -/
def qLoop (acc : List RawComment) : List Json → Except PyErr (List RawComment)
  | [] => .ok acc
  | q :: rest =>
    match qStep acc q with
    | .ok acc2 => qLoop acc2 rest
    | .error e => .error e

/-- The whole comment-collection phase, from the value of
`inspection_data.get('questions', [])`. -/
def collectComments (questionsJ : Json) : Except PyErr (List RawComment) :=
  match pyIter questionsJ with
  | .error e => .error e
  | .ok qs => qLoop [] qs

/-! ### `generate_question_numbers` (sire_app.py lines 109-127) -/

/-- Lookup in the question-number map. -/
def jlookup (k : Json) : List (Json × String) → Option String
  | [] => none
  | p :: rest => if p.1 = k then some p.2 else jlookup k rest

/-- The label `f"{g}.{n}"`. -/
def qlbl (g n : Nat) : String := toString g ++ "." ++ toString n

/-- Scan state of `generate_question_numbers`: the memo dict, `current_group`,
`current_number` and `last_id`.  `last_id` starts as Python `None`, which is
the same runtime value as JSON `null`, hence `Json.null`. -/
structure GState where
  qmap : List (Json × String)
  group : Nat
  number : Nat
  last : Json
deriving DecidableEq, Repr

/-- One iteration of the scan: an identifier not yet in the map bumps the
group and resets the number to 1 when it differs from `last_id`, is assigned
the label built from the current counters, and becomes `last_id`; every
iteration ends with `current_number += 1`. -/
def gqnStep (st : GState) (current_id : Json) : GState :=
  if (jlookup current_id st.qmap).isSome then
    { st with number := st.number + 1 }
  else
    let g := if current_id ≠ st.last then st.group + 1 else st.group
    let n := if current_id ≠ st.last then 1 else st.number
    { qmap := st.qmap ++ [(current_id, qlbl g n)], group := g, number := n + 1,
      last := current_id }

/-- Run the scan over a list of identifiers. -/
def gqnRun (st : GState) : List Json → GState
  | [] => st
  | i :: rest => gqnRun (gqnStep st i) rest

/-- Initial state: empty map, `current_group = 0`, `current_number = 0`,
`last_id = None`. -/
def gqnInit : GState := ⟨[], 0, 0, .null⟩

/-- `generate_question_numbers`: the memo dict after scanning every
comment's `id` field. -/
def generate_question_numbers (comments : List RawComment) : List (Json × String) :=
  (gqnRun gqnInit (comments.map (·.id))).qmap

/-! ### Assembling the result (sire_app.py lines 129-184) -/

/-- One row of the final comments table:
`[question_number, inspector_comment, operator_comment, date]`. -/
structure Row where
  label : String
  inspector : Json
  operator : Json
  date : Json
deriving DecidableEq, Repr

/-- The `for comment in comments` loop building `comments_data`, looking each
identifier up in the memo map (`question_numbers[comment['id']]` would raise
`KeyError` were the identifier missing). -/
def rowsLoop (qn : List (Json × String)) : List RawComment → Except PyErr (List Row)
  | [] => .ok []
  | c :: rest =>
    match jlookup c.id qn with
    | some l =>
      match rowsLoop qn rest with
      | .ok rs => .ok (⟨l, c.inspector, c.operator, c.date⟩ :: rs)
      | .error e => .error e
    | none => .error .keyError

/-- Generate the question numbers for the collected comments and build the
final rows. -/
def buildRows (comments : List RawComment) : Except PyErr (List Row) :=
  rowsLoop (generate_question_numbers comments) comments

/-- Everything inside `process_inspection_data`'s `try`: metadata first,
then comment collection, numbering and row assembly. -/
def traverse (j : Json) : Except PyErr (List (Json × Json) × List Row) :=
  match pyGet j "metaData" (Json.mkArr []) with
  | .error e => .error e
  | .ok metaJ =>
  match pyIter metaJ with
  | .error e => .error e
  | .ok items =>
  match metaLoop [] items with
  | .error e => .error e
  | .ok md =>
  match pyGet j "questions" (Json.mkArr []) with
  | .error e => .error e
  | .ok qJ =>
  match collectComments qJ with
  | .error e => .error e
  | .ok comments =>
  match buildRows comments with
  | .error e => .error e
  | .ok rows => .ok (md, rows)

/-- Result of `process_inspection_data`: the two tables (absent = Python
`None`) plus the error surfaced by `st.error` when the traversal raised. -/
structure ProcOut where
  metadata_list : Option (List (Json × Json))
  comments_data : Option (List Row)
  errorMsg : Option PyErr
deriving DecidableEq, Repr

/-- `process_inspection_data` (sire_app.py lines 129-184): falsy input
returns `(None, None)` at once; otherwise the traversal runs under a
`try`/`except` that surfaces any exception and returns `(None, None)`. -/
def process_inspection_data (j : Json) : ProcOut :=
  if !pyTruthy j then ⟨none, none, none⟩
  else
    match traverse j with
    | .ok (md, rows) => ⟨some md, some rows, none⟩
    | .error e => ⟨none, none, some e⟩

/-! ### Strict JSON parsing (`json.loads` on text input)

The lexer follows CPython's `json` scanner: inter-token whitespace is
space/tab/newline/carriage-return; string literals reject raw control
characters below 0x20 (`strict=True`) and support the eight standard
escapes plus `\uXXXX`; numbers follow `-?(0|[1-9]\d*)(\.\d+)?([eE][+-]?\d+)?`
and the constants `NaN`, `Infinity`, `-Infinity` are accepted.  The token
parser is plain recursive descent with a fuel argument large enough for any
token list.  Objects follow dict semantics: a repeated key keeps its first
position and takes its last value. -/

/-- JSON inter-token whitespace. -/
def jsonWs (c : Char) : Bool := c = ' ' || c = '\t' || c = '\n' || c = '\r'

/-- Hexadecimal digit value. -/
def hexVal? (c : Char) : Option Nat :=
  if isDig c then some (digVal c)
  else if 'a' ≤ c && c ≤ 'f' then some (c.toNat - 87)
  else if 'A' ≤ c && c ≤ 'F' then some (c.toNat - 55)
  else none

/-- Single-character escapes of JSON string literals. -/
def escChar (c : Char) : Option Char :=
  if c = '"' then some '"'
  else if c = '\\' then some '\\'
  else if c = '/' then some '/'
  else if c = 'b' then some (Char.ofNat 8)
  else if c = 'f' then some (Char.ofNat 12)
  else if c = 'n' then some '\n'
  else if c = 'r' then some '\r'
  else if c = 't' then some '\t'
  else none

/-- Scan a string literal body (after the opening quote) up to and including
the closing quote.  Raw control characters below 0x20 are rejected, as
Python's strict mode does.  (Surrogate-pair recombination of `\uXXXX`
escapes is not modelled; no claim depends on it.) -/
def scanStr (acc : List Char) : List Char → Option (String × List Char)
  | [] => none
  | c :: rest =>
    if c = '"' then some (String.mk acc.reverse, rest)
    else if c = '\\' then
      match rest with
      | e :: rest2 =>
        if e = 'u' then
          match rest2 with
          | h1 :: h2 :: h3 :: h4 :: rest4 =>
            match hexVal? h1, hexVal? h2, hexVal? h3, hexVal? h4 with
            | some a, some b, some c2, some d =>
              scanStr (Char.ofNat (((a * 16 + b) * 16 + c2) * 16 + d) :: acc) rest4
            | _, _, _, _ => none
          | _ => none
        else
          match escChar e with
          | some ch => scanStr (ch :: acc) rest2
          | none => none
      | [] => none
    else if c.toNat < 32 then none
    else scanStr (c :: acc) rest

/-- Longest digit run at the head of the list, and the remainder. -/
def takeDigits (cs : List Char) : List Char × List Char :=
  (cs.takeWhile isDig, cs.dropWhile isDig)

/-- Optional fraction part `\.\d+` (returning its digits); on no match the
input is returned untouched. -/
def scanFrac (cs : List Char) : List Char × List Char :=
  match cs with
  | c :: rest =>
    if c = '.' then
      let (ds, rest2) := takeDigits rest
      if ds = [] then ([], cs) else (ds, rest2)
    else ([], cs)
  | [] => ([], cs)

/-- Optional exponent part `[eE][+-]?\d+` (returning sign and digits); on no
match the input is returned untouched. -/
def scanExp (cs : List Char) : List Char × List Char :=
  match cs with
  | e :: rest =>
    if e = 'e' || e = 'E' then
      let (sgn, rest1) :=
        match rest with
        | s :: rest2 => if s = '+' || s = '-' then ([s], rest2) else (([] : List Char), rest)
        | [] => ([], rest)
      let (ds, rest3) := takeDigits rest1
      if ds = [] then ([], cs) else (sgn ++ ds, rest3)
    else ([], cs)
  | [] => ([], cs)

/-- Scan a number token per the CPython `json` number regex.  The integer
part is `0` or starts with a nonzero digit. -/
def scanNum (cs : List Char) : Option (JNum × List Char) :=
  let (neg, cs0) :=
    match cs with
    | c :: rest => if c = '-' then (true, rest) else (false, cs)
    | [] => (false, cs)
  let (ip, cs1) :=
    match cs0 with
    | c :: rest =>
      if c = '0' then (['0'], rest)
      else if isDig c then takeDigits (c :: rest)
      else (([] : List Char), cs0)
    | [] => ([], cs0)
  if ip = [] then none
  else
    let (fr, cs2) := scanFrac cs1
    let (ex, cs3) := scanExp cs2
    some (JNum.fin neg (String.mk ip) (String.mk fr) (String.mk ex), cs3)

/-- Match a literal character sequence and return the remainder. -/
def dropLit : List Char → List Char → Option (List Char)
  | [], cs => some cs
  | p :: ps, c :: cs => if p = c then dropLit ps cs else none
  | _ :: _, [] => none

/-- JSON tokens; scalar literals carry their value directly. -/
inductive Tok where
  | lbrace
  | rbrace
  | lbrack
  | rbrack
  | colon
  | comma
  | lit (j : Json)
deriving DecidableEq, Repr

/-- Outcome of one scanner dispatch: end of input, a skipped whitespace
character, one complete token, or a lexical error. -/
inductive LexStep where
  | done
  | skip (rest : List Char)
  | tok (t : Tok) (rest : List Char)
  | fail
deriving DecidableEq, Repr

/-- One scanner dispatch on the head character: skip whitespace, emit
punctuation, or delegate to the string/number/constant scanners. -/
def lexStep : List Char → LexStep
  | [] => .done
  | c :: rest =>
    if jsonWs c then .skip rest
    else if c = '{' then .tok .lbrace rest
    else if c = '}' then .tok .rbrace rest
    else if c = '[' then .tok .lbrack rest
    else if c = ']' then .tok .rbrack rest
    else if c = ':' then .tok .colon rest
    else if c = ',' then .tok .comma rest
    else if c = '"' then
      match scanStr [] rest with
      | some (s, rest2) => .tok (.lit (.str s)) rest2
      | none => .fail
    else if isDig c || c = '-' then
      match scanNum (c :: rest) with
      | some (n, rest2) => .tok (.lit (.num n)) rest2
      | none =>
        if c = '-' then
          match dropLit ['I', 'n', 'f', 'i', 'n', 'i', 't', 'y'] rest with
          | some rest2 => .tok (.lit (.num .neginf)) rest2
          | none => .fail
        else .fail
    else if c = 't' then
      match dropLit ['r', 'u', 'e'] rest with
      | some rest2 => .tok (.lit (.bool true)) rest2
      | none => .fail
    else if c = 'f' then
      match dropLit ['a', 'l', 's', 'e'] rest with
      | some rest2 => .tok (.lit (.bool false)) rest2
      | none => .fail
    else if c = 'n' then
      match dropLit ['u', 'l', 'l'] rest with
      | some rest2 => .tok (.lit .null) rest2
      | none => .fail
    else if c = 'N' then
      match dropLit ['a', 'N'] rest with
      | some rest2 => .tok (.lit (.num .nan)) rest2
      | none => .fail
    else if c = 'I' then
      match dropLit ['n', 'f', 'i', 'n', 'i', 't', 'y'] rest with
      | some rest2 => .tok (.lit (.num .inf)) rest2
      | none => .fail
    else .fail

/-- The lexer loop.  Fuel only bounds the iteration count; every step
consumes at least one character, so `length + 1` fuel always suffices. -/
def lexGo (fuel : Nat) (cs : List Char) (acc : List Tok) : Option (List Tok) :=
  match fuel with
  | 0 => none
  | fuel + 1 =>
    match lexStep cs with
    | .done => some acc.reverse
    | .skip rest => lexGo fuel rest acc
    | .tok t rest => lexGo fuel rest (t :: acc)
    | .fail => none

/-- Tokenize a whole text. -/
def lex (cs : List Char) : Option (List Tok) := lexGo (cs.length + 1) cs []

/-- Insert a key into an object under dict semantics: overwrite in place
when present, append otherwise. -/
def objInsert (o : JObj) (k : String) (v : Json) : JObj :=
  match o with
  | .nil => .cons k v .nil
  | .cons k2 v2 t => if k2 = k then .cons k2 v t else .cons k2 v2 (objInsert t k v)

/-- Build a dict from parsed members in order. -/
def objFromPairs (kvs : List (String × Json)) : JObj :=
  kvs.foldl (fun o kv => objInsert o kv.1 kv.2) .nil

mutual
/-- Parse one JSON value from a token stream. -/
def parseVal (fuel : Nat) (ts : List Tok) : Option (Json × List Tok) :=
  match fuel with
  | 0 => none
  | fuel + 1 =>
    match ts with
    | .lit j :: rest => some (j, rest)
    | .lbrack :: .rbrack :: rest => some (.arr .nil, rest)
    | .lbrack :: rest =>
      match parseArrItems fuel rest with
      | some (xs, rest2) => some (.arr xs, rest2)
      | none => none
    | .lbrace :: .rbrace :: rest => some (.obj .nil, rest)
    | .lbrace :: rest =>
      match parseObjItems fuel rest with
      | some (kvs, rest2) => some (.obj (objFromPairs kvs), rest2)
      | none => none
    | _ => none

/-- Parse the members of a nonempty array up to and including `]`. -/
def parseArrItems (fuel : Nat) (ts : List Tok) : Option (JArr × List Tok) :=
  match fuel with
  | 0 => none
  | fuel + 1 =>
    match parseVal fuel ts with
    | none => none
    | some (v, rest) =>
      match rest with
      | .comma :: rest2 =>
        match parseArrItems fuel rest2 with
        | some (xs, rest3) => some (.cons v xs, rest3)
        | none => none
      | .rbrack :: rest2 => some (.cons v .nil, rest2)
      | _ => none

/-- Parse the members of a nonempty object up to and including the closing
brace. -/
def parseObjItems (fuel : Nat) (ts : List Tok) : Option (List (String × Json) × List Tok) :=
  match fuel with
  | 0 => none
  | fuel + 1 =>
    match ts with
    | .lit (.str k) :: .colon :: rest =>
      match parseVal fuel rest with
      | none => none
      | some (v, rest2) =>
        match rest2 with
        | .comma :: rest3 =>
          match parseObjItems fuel rest3 with
          | some (kvs, rest4) => some ((k, v) :: kvs, rest4)
          | none => none
        | .rbrace :: rest3 => some ([(k, v)], rest3)
        | _ => none
    | _ => none
end

/-- Parse a full token stream: one value, nothing left over. -/
def parseToks (ts : List Tok) : Option Json :=
  match parseVal (2 * ts.length + 2) ts with
  | some (v, []) => some v
  | _ => none

/-- `json.loads` on a text: lex then parse. -/
def parseJsonL (cs : List Char) : Option Json :=
  match lex cs with
  | some ts => parseToks ts
  | none => none

/-! ### The Process File handler (sire_app.py lines 249-291) -/

/-- The prefix repairs, in the handler's priority order: `replace` with
count 1 under a `startswith` guard rewrites exactly the leading
characters. -/
def prefixRepair : List Char → List Char
  | '{' :: '"' :: ',' :: rest => '{' :: rest
  | '{' :: '"' :: rest => '{' :: '"' :: rest
  | '{' :: ',' :: rest => '{' :: rest
  | cs => cs

/-- Python `str.isspace` characters (the set `str.strip()` removes). -/
def pyWsChar (c : Char) : Bool :=
  c = ' ' || ('\x09' ≤ c && c ≤ '\x0d') || ('\x1c' ≤ c && c ≤ '\x1f') ||
  c = '\x85' || c = '\xa0' || c = '\u1680' ||
  ('\u2000' ≤ c && c ≤ '\u200a') || c = '\u2028' || c = '\u2029' ||
  c = '\u202f' || c = '\u205f' || c = '\u3000'

/-- `str.strip()`: drop leading and trailing whitespace runs. -/
def pyStrip (cs : List Char) : List Char :=
  ((cs.dropWhile pyWsChar).reverse.dropWhile pyWsChar).reverse

/-- `str.replace(c0, '')`: remove every occurrence of one character. -/
def removeChar (c0 : Char) (cs : List Char) : List Char :=
  cs.filter (fun c => !(c = c0))

/-- The text handed to the first `json.loads` attempt: prefix repair, strip,
then removal of NUL and carriage-return characters. -/
def stage4 (cs : List Char) : List Char :=
  removeChar '\r' (removeChar '\x00' (pyStrip (prefixRepair cs)))

/-- The aggressive cleanup: drop control characters below space except
newline and tab. -/
def aggressiveClean (cs : List Char) : List Char :=
  cs.filter (fun c => 32 ≤ c.toNat || c = '\n' || c = '\t')

/-- Characters after the first `{` (`split('{', 1)[1]` when it exists). -/
def afterFirstBrace (cs : List Char) : List Char :=
  match cs.dropWhile (fun c => !(c = '{')) with
  | [] => []
  | _ :: rest => rest

/-- Outcome surfaced by the handler.  `success` is the clean
"File loaded successfully!" path, `successCleanup` the recovered one,
`invalidJson` the `json.JSONDecodeError` handler carrying the parser's
message, and `errorLoading` the outer `except Exception` handler (reached
for example by the `IndexError` from `split('{', 1)[1]`). -/
inductive Outcome where
  | success (j : Json)
  | successCleanup (j : Json)
  | invalidJson
  | errorLoading
deriving DecidableEq, Repr

/-- Second `json.loads` attempt, inside the inner `try`. -/
def aggressiveParse (cs : List Char) : Outcome :=
  match parseJsonL cs with
  | some v => .successCleanup v
  | none => .invalidJson

/-- The Process File handler on decoded text. -/
def processFile (cs : List Char) : Outcome :=
  match parseJsonL (stage4 cs) with
  | some v => .success v
  | none =>
    let clean := aggressiveClean (stage4 cs)
    if clean.head? = some '{' then aggressiveParse clean
    else if clean.contains '{' then aggressiveParse ('{' :: afterFirstBrace clean)
    else .errorLoading

/-! ### Spec-side model of the question-numbering scan (spec §4.2)

Transcribed from the specification's wording: `lastSeenIdentifier` starts
*undefined* (modelled as `none`, which no identifier equals); a not yet
labeled identifier that differs from it bumps the group and resets the
sequence to 0; the sequence is then incremented and the label assigned from
the current counters; every processed comment ends with one more sequence
increment. -/

/-- Scan state as the specification describes it. -/
structure SState where
  smap : List (Json × String)
  group : Nat
  seq : Nat
  lastSeen : Option Json
deriving DecidableEq, Repr

/-- One comment processed according to the specification's wording. -/
def specStep (st : SState) (current_id : Json) : SState :=
  let st1 :=
    if (jlookup current_id st.smap).isSome then st
    else
      let g := if some current_id ≠ st.lastSeen then st.group + 1 else st.group
      let s0 := if some current_id ≠ st.lastSeen then 0 else st.seq
      ⟨st.smap ++ [(current_id, qlbl g (s0 + 1))], g, s0 + 1, some current_id⟩
  { st1 with seq := st1.seq + 1 }

/-- Run the specification's scan. -/
def specRun (st : SState) : List Json → SState
  | [] => st
  | i :: rest => specRun (specStep st i) rest

/-- Initial state of the specification's scan. -/
def specInit : SState := ⟨[], 0, 0, none⟩

/-- Label map the specification's scan assigns to a list of identifiers. -/
def specScanMap (ids : List Json) : List (Json × String) := (specRun specInit ids).smap

/-! ### Declarative descriptions used by the remaining claims -/

/-- Distinct elements in order of first appearance (worker with a seen
accumulator). -/
def dfAux {α : Type} [DecidableEq α] (seen : List α) : List α → List α
  | [] => []
  | i :: rest => if i ∈ seen then dfAux seen rest else i :: dfAux (seen ++ [i]) rest

/-- Distinct elements of a list in order of first appearance. -/
def distinctFirst {α : Type} [DecidableEq α] (l : List α) : List α := dfAux [] l

/-- Labels `g.1`, `(g+1).1`, ... attached to a list of identifiers. -/
def labelFrom (g : Nat) : List Json → List (Json × String)
  | [] => []
  | i :: rest => (i, qlbl g 1) :: labelFrom (g + 1) rest

/-- Encode a source `metaData` record `{key: k, value: v}`. -/
def encodeMetaItem (kv : String × String) : Json :=
  Json.mkObj [("key", .str kv.1), ("value", .str kv.2)]

/-- A key is date-like when it contains `DATE` or `DATETIME`. -/
def isDateKey (k : String) : Bool := strContains k "DATE" || strContains k "DATETIME"

/-- Value stored in the metadata table for key `k` and source value `v`. -/
def fmtMetaVal (k v : String) : String := if isDateKey k then format_date v else v

/-- Value of the last occurrence of key `k` in a key/value sequence. -/
def lastVal (k : String) : List (String × String) → Option String
  | [] => none
  | kv :: rest =>
    match lastVal k rest with
    | some v => some v
    | none => if kv.1 = k then some kv.2 else none

/-- The metadata table as the specification describes it: one row per
distinct key in order of first occurrence, carrying the (possibly
date-reformatted) value of the key's last occurrence. -/
def specTable (items : List (String × String)) : List (Json × Json) :=
  (distinctFirst (items.map (·.1))).map
    (fun k => (Json.str k, Json.str (fmtMetaVal k ((lastVal k items).getD ""))))

/-! ### Well-formed partial documents (spec §3, claim C9) -/

/-- The value is a dict. -/
def isObjB : Json → Bool
  | .obj _ => true
  | _ => false

/-- An optional array field: absent, or an array whose elements all satisfy
`p`. -/
def wfOptArr (p : Json → Bool) : Option Json → Bool
  | none => true
  | some (.arr xs) => xs.toList.all p
  | some _ => false

/-- A `metaData` record: a dict with a string `key` and some `value`. -/
def wfMetaItem : Json → Bool
  | .obj kvs =>
    (match kvs.find "key" with
     | some (.str _) => true
     | _ => false) && (kvs.find "value").isSome
  | _ => false

/-- An observation: a dict whose `initialOperatorComments`, when present, is
an array of dicts. -/
def wfObs : Json → Bool
  | .obj kvs => wfOptArr isObjB (kvs.find "initialOperatorComments")
  | _ => false

/-- A complex response: a dict whose `observations`, when present, is an
array of well-formed observations. -/
def wfResp : Json → Bool
  | .obj kvs => wfOptArr wfObs (kvs.find "observations")
  | _ => false

/-- A question: a dict whose `templateQuestionId`, when present, is a
string — the data model types the identifier as a string, and a
non-string identifier such as a list or dict is outside the partial
documents the invariant speaks about (Python would reject it as an
unhashable dict key) — and whose `complexResponses`, when present, is an
array of well-formed responses. -/
def wfQ : Json → Bool
  | .obj kvs =>
    (match kvs.find "templateQuestionId" with
     | none => true
     | some (.str _) => true
     | some _ => false) &&
    wfOptArr wfResp (kvs.find "complexResponses")
  | _ => false

/-- A well-formed partial document: a dict whose `metaData` and `questions`
fields, when present, are arrays of well-formed records.  Every field the
data model marks optional is allowed to be absent. -/
def wfDoc : Json → Bool
  | .obj kvs =>
    wfOptArr wfMetaItem (kvs.find "metaData") && wfOptArr wfQ (kvs.find "questions")
  | _ => false

/-- No two adjacent literal tokens.  Every token stream that parses as one
JSON value has this shape: literals are always separated by punctuation. -/
def noAdjToks : List Tok → Bool
  | .lit _ :: .lit _ :: _ => false
  | _ :: rest => noAdjToks rest
  | [] => true

/-- The head of a token list, if any, is not a literal token. -/
def headNotLit : List Tok → Bool
  | .lit _ :: _ => false
  | _ => true

/-- A character that could extend a just-scanned number token were it
adjacent: a digit, a decimal point, or an exponent marker. -/
def numExt (c : Char) : Bool := isDig c || c = '.' || c = 'e' || c = 'E'

/-- The head of a character list, if any, cannot extend a number token. -/
def headNoNumExt (cs : List Char) : Bool :=
  match cs with
  | [] => true
  | c :: _ => !numExt c

/-! ## Theorems -/

/-! ### C4: `format_date` -/

/-- C4: `format_date` is a pure function on strings with exactly the stated
behavior: empty input yields `""`; when the input contains `T`, the part
before the first `.` is parsed with `%Y-%m-%dT%H:%M:%S` and re-rendered as
`%Y-%m-%d %H:%M`, any parse failure returning the input unchanged; inputs
without `T` are returned unchanged; and the specification's four examples
evaluate as stated. -/
theorem format_date_behavior :
    format_date "" = ""
    ∧ (∀ s : String, s.toList.contains 'T' = false → format_date s = s)
    ∧ (∀ s : String, s.toList.contains 'T' = true →
        format_date s =
          match parseTimestamp (beforeDot s) with
          | some dt => renderDT dt
          | none => s)
    ∧ format_date "2024-03-05T14:30:00.000Z" = "2024-03-05 14:30"
    ∧ format_date "2024-03-05" = "2024-03-05"
    ∧ format_date "not-a-date" = "not-a-date" := by
  refine ⟨rfl, ?_, ?_, rfl, rfl, rfl⟩
  · intro s h
    by_cases hs : s = ""
    · subst hs; rfl
    · simp at h
      simp [format_date, hs, h]
  · intro s h
    have hs : ¬ s = "" := by
      intro he
      subst he
      simp at h
    simp at h
    simp [format_date, hs, h]

/-- Closed instance of `format_date_behavior` at concrete inputs, exercising
the re-render branch and the no-`T` branch. -/
theorem format_date_behavior_witness :
    format_date "1999-12-31T23:59:59" = "1999-12-31 23:59" ∧ format_date "abc" = "abc" :=
  ⟨(format_date_behavior.2.2.1 "1999-12-31T23:59:59" rfl).trans rfl,
   format_date_behavior.2.1 "abc" rfl⟩

/-! ### C6: the extractor's error boundary -/

/-- C6: `process_inspection_data` never raises past its boundary: falsy
input returns `(None, None)` with nothing surfaced; when a truthy input
makes the traversal raise, the exception is caught, surfaced as the error
message, and `(None, None)` is returned; and the two tables are always both
absent or both present. -/
theorem process_inspection_data_boundary (j : Json) :
    (pyTruthy j = false → process_inspection_data j = ⟨none, none, none⟩)
    ∧ (pyTruthy j = true → ∀ e, traverse j = .error e →
        process_inspection_data j = ⟨none, none, some e⟩)
    ∧ ((process_inspection_data j).metadata_list = none ↔
        (process_inspection_data j).comments_data = none) := by
  refine ⟨fun h => by simp [process_inspection_data, h],
          fun h e he => by simp [process_inspection_data, h, he], ?_⟩
  by_cases h : pyTruthy j
  · rcases htr : traverse j with e | ⟨md, rows⟩
    · simp [process_inspection_data, h, htr]
    · simp [process_inspection_data, h, htr]
  · simp [process_inspection_data, h]

/-- Closed instance of `process_inspection_data_boundary`: a bare number is
truthy, the traversal raises `AttributeError` on `.get`, and the caught
error is surfaced with both tables absent. -/
theorem process_inspection_data_boundary_witness :
    process_inspection_data (Json.num (.fin false "5" "" "")) =
      ⟨none, none, some .attributeError⟩ :=
  (process_inspection_data_boundary (Json.num (.fin false "5" "" ""))).2.1
    rfl .attributeError rfl

/-! ### C7: empty versus absent tables -/

/-- C7: a non-empty parsed document whose `metaData` and `questions` fields
are absent or empty arrays makes the extractor return empty — not absent —
tables, with no error surfaced. -/
theorem empty_fields_give_empty_tables (kvs : JObj) (hne : ¬ kvs = .nil)
    (hm : kvs.find "metaData" = none ∨ kvs.find "metaData" = some (Json.mkArr []))
    (hq : kvs.find "questions" = none ∨ kvs.find "questions" = some (Json.mkArr [])) :
    process_inspection_data (.obj kvs) = ⟨some [], some [], none⟩
    ∧ (process_inspection_data (.obj kvs)).metadata_list ≠ none
    ∧ (process_inspection_data (.obj kvs)).comments_data ≠ none := by
  have htru : pyTruthy (.obj kvs) = true := by simp [pyTruthy, hne]
  have h1 : pyGet (.obj kvs) "metaData" (Json.mkArr []) = .ok (Json.mkArr []) := by
    rcases hm with h | h <;> simp [pyGet, h]
  have h2 : pyGet (.obj kvs) "questions" (Json.mkArr []) = .ok (Json.mkArr []) := by
    rcases hq with h | h <;> simp [pyGet, h]
  have htr : traverse (.obj kvs) = .ok ([], []) := by
    rw [traverse.eq_def]
    rw [h1]
    simp only []
    rw [h2]
    rfl
  rw [process_inspection_data, htru, htr]
  simp

/-- Closed instance of `empty_fields_give_empty_tables` on a document with
one unrelated field and no `metaData`/`questions`. -/
theorem empty_fields_give_empty_tables_witness :
    process_inspection_data (Json.mkObj [("foo", Json.null)]) = ⟨some [], some [], none⟩ :=
  (empty_fields_give_empty_tables (JObj.cons "foo" Json.null .nil) (by decide)
    (Or.inl rfl) (Or.inl rfl)).1

/-! ### The question-number map: helper lemmas -/

theorem jlookup_append_of_none {k : Json} : ∀ {l1 : List (Json × String)},
    jlookup k l1 = none → ∀ l2, jlookup k (l1 ++ l2) = jlookup k l2 := by
  intro l1
  induction l1 with
  | nil => intro _ l2; rfl
  | cons p rest ih =>
    intro h l2
    by_cases hp : p.1 = k
    · simp [jlookup, hp] at h
    · simp only [jlookup, hp, if_false, List.cons_append, if_neg hp] at h ⊢
      exact ih h l2

theorem jlookup_append_of_some {k : Json} {v : String} : ∀ {l1 : List (Json × String)},
    jlookup k l1 = some v → ∀ l2, jlookup k (l1 ++ l2) = some v := by
  intro l1
  induction l1 with
  | nil => intro h; cases h
  | cons p rest ih =>
    intro h l2
    by_cases hp : p.1 = k
    · simp only [jlookup, hp, if_true, List.cons_append, if_pos hp] at h ⊢
      exact h
    · simp only [jlookup, hp, if_false, List.cons_append, if_neg hp] at h ⊢
      exact ih h l2

theorem jlookup_append_self {k : Json} {l : List (Json × String)}
    (h : jlookup k l = none) (v : String) : jlookup k (l ++ [(k, v)]) = some v := by
  rw [jlookup_append_of_none h]
  simp [jlookup]

/-- The in-map branch of the scan only advances `current_number`. -/
theorem gqnStep_mem (st : GState) (i : Json) (h : (jlookup i st.qmap).isSome = true) :
    gqnStep st i = { st with number := st.number + 1 } := by
  rw [gqnStep, if_pos h]

/-- The new-identifier branch when the identifier differs from `last_id`. -/
theorem gqnStep_new (st : GState) (i : Json) (h : jlookup i st.qmap = none)
    (hne : i ≠ st.last) :
    gqnStep st i = ⟨st.qmap ++ [(i, qlbl (st.group + 1) 1)], st.group + 1, 2, i⟩ := by
  rw [gqnStep, if_neg (by simp [h])]
  simp [hne]

theorem gqnStep_qmap_isSome_mono {st : GState} {k : Json}
    (h : (jlookup k st.qmap).isSome = true) (i : Json) :
    (jlookup k (gqnStep st i).qmap).isSome = true := by
  by_cases hi : (jlookup i st.qmap).isSome = true
  · rw [gqnStep_mem st i hi]; exact h
  · obtain ⟨v, hv⟩ := Option.isSome_iff_exists.mp h
    have hnone : jlookup i st.qmap = none := Option.not_isSome_iff_eq_none.mp (by simpa using hi)
    have hne : i ≠ st.last ∨ i = st.last := (ne_or_eq i st.last)
    rcases hne with hne | hne
    · rw [gqnStep_new st i hnone hne]
      simp only []
      rw [jlookup_append_of_some hv]
      rfl
    · rw [gqnStep, if_neg (by simp [hnone])]
      simp only []
      rw [jlookup_append_of_some hv]
      rfl

theorem gqnStep_self_isSome (st : GState) (i : Json) :
    (jlookup i (gqnStep st i).qmap).isSome = true := by
  by_cases hi : (jlookup i st.qmap).isSome = true
  · rw [gqnStep_mem st i hi]; exact hi
  · have hnone : jlookup i st.qmap = none := Option.not_isSome_iff_eq_none.mp (by simpa using hi)
    rw [gqnStep, if_neg (by simp [hnone])]
    simp only []
    rw [jlookup_append_self hnone]
    rfl

theorem gqnRun_qmap_isSome_mono {k : Json} : ∀ (ids : List Json) (st : GState),
    (jlookup k st.qmap).isSome = true → (jlookup k (gqnRun st ids).qmap).isSome = true
  | [], _, h => h
  | i :: rest, st, h =>
    gqnRun_qmap_isSome_mono rest (gqnStep st i) (gqnStep_qmap_isSome_mono h i)

/-- Every scanned identifier ends up in the map. -/
theorem gqnRun_covers : ∀ (ids : List Json) (st : GState) (i : Json), i ∈ ids →
    (jlookup i (gqnRun st ids).qmap).isSome = true := by
  intro ids
  induction ids with
  | nil => intro st i h; cases h
  | cons a rest ih =>
    intro st i h
    rcases List.mem_cons.mp h with rfl | h2
    · exact gqnRun_qmap_isSome_mono rest (gqnStep st i) (gqnStep_self_isSome st i)
    · exact ih (gqnStep st a) i h2

/-- When every identifier is in the map, the rows loop succeeds and each row
takes the label looked up for its identifier. -/
theorem rowsLoop_ok (qn : List (Json × String)) : ∀ (cs : List RawComment),
    (∀ c ∈ cs, (jlookup c.id qn).isSome = true) →
    rowsLoop qn cs = .ok (cs.map (fun c =>
      ⟨(jlookup c.id qn).getD "", c.inspector, c.operator, c.date⟩)) := by
  intro cs
  induction cs with
  | nil => intro _; rfl
  | cons c rest ih =>
    intro h
    obtain ⟨l, hl⟩ := Option.isSome_iff_exists.mp (h c (List.mem_cons_self c rest))
    rw [rowsLoop, hl, ih (fun x hx => h x (List.mem_cons_of_mem c hx))]
    simp [hl]

/-! ### C10: rows reuse the memoized labels -/

/-- C10: the rows loop always succeeds and every row of the final comments
table carries exactly the label memoized for its raw identifier in the
question-number map, so any two rows whose comments share a raw identifier
carry the same question label. -/
theorem rows_use_memoized_labels (comments : List RawComment) :
    buildRows comments = .ok (comments.map (fun c =>
      ⟨(jlookup c.id (generate_question_numbers comments)).getD "",
        c.inspector, c.operator, c.date⟩))
    ∧ ∀ rows, buildRows comments = .ok rows →
        ∀ (i j : Nat) (hi : i < rows.length) (hj : j < rows.length)
          (hi2 : i < comments.length) (hj2 : j < comments.length),
          (comments.get ⟨i, hi2⟩).id = (comments.get ⟨j, hj2⟩).id →
          (rows.get ⟨i, hi⟩).label = (rows.get ⟨j, hj⟩).label := by
  have hcov : ∀ c ∈ comments,
      (jlookup c.id (generate_question_numbers comments)).isSome = true := by
    intro c hc
    exact gqnRun_covers (comments.map (·.id)) gqnInit c.id (List.mem_map_of_mem _ hc)
  have hmain := rowsLoop_ok (generate_question_numbers comments) comments hcov
  refine ⟨hmain, ?_⟩
  intro rows hrows i j hi hj hi2 hj2 heq
  have hr : rows = comments.map (fun c =>
      (⟨(jlookup c.id (generate_question_numbers comments)).getD "",
        c.inspector, c.operator, c.date⟩ : Row)) := by
    have h2 := hmain.symm.trans hrows
    exact ((Except.ok.injEq _ _).mp h2).symm
  subst hr
  simp only [List.get_eq_getElem, List.getElem_map]
  rw [show comments[i] = comments.get ⟨i, hi2⟩ from rfl,
      show comments[j] = comments.get ⟨j, hj2⟩ from rfl, heq]

/-- Closed instance of `rows_use_memoized_labels`: two comments share an
identifier; both rows succeed and carry the identical memoized label. -/
theorem rows_use_memoized_labels_witness :
    buildRows [⟨Json.str "A", Json.str "x", Json.str "y", Json.str "d"⟩,
               ⟨Json.str "A", Json.str "x2", Json.str "y2", Json.str "d2"⟩]
      = .ok [⟨"1.1", Json.str "x", Json.str "y", Json.str "d"⟩,
             ⟨"1.1", Json.str "x2", Json.str "y2", Json.str "d2"⟩]
    ∧ (([⟨"1.1", Json.str "x", Json.str "y", Json.str "d"⟩,
         ⟨"1.1", Json.str "x2", Json.str "y2", Json.str "d2"⟩] : List Row).get
            ⟨0, by decide⟩).label
      = (([⟨"1.1", Json.str "x", Json.str "y", Json.str "d"⟩,
           ⟨"1.1", Json.str "x2", Json.str "y2", Json.str "d2"⟩] : List Row).get
            ⟨1, by decide⟩).label := by
  have h1 := (rows_use_memoized_labels
      [⟨Json.str "A", Json.str "x", Json.str "y", Json.str "d"⟩,
       ⟨Json.str "A", Json.str "x2", Json.str "y2", Json.str "d2"⟩]).1.trans rfl
  exact ⟨h1, (rows_use_memoized_labels
      [⟨Json.str "A", Json.str "x", Json.str "y", Json.str "d"⟩,
       ⟨Json.str "A", Json.str "x2", Json.str "y2", Json.str "d2"⟩]).2 _ h1 0 1
      (by decide) (by decide) (by decide) (by decide) rfl⟩

/-! ### C1: the code's scan versus the specification's scan -/

/-- The specification's scan on an already-labeled identifier only advances
the sequence counter. -/
theorem specStep_mem (st : SState) (i : Json) (h : (jlookup i st.smap).isSome = true) :
    specStep st i = { st with seq := st.seq + 1 } := by
  rw [specStep]
  simp [h]

/-- The specification's scan on a fresh identifier differing from
`lastSeenIdentifier`. -/
theorem specStep_new (st : SState) (i : Json) (h : jlookup i st.smap = none)
    (hne : some i ≠ st.lastSeen) :
    specStep st i = ⟨st.smap ++ [(i, qlbl (st.group + 1) 1)], st.group + 1, 2, some i⟩ := by
  rw [specStep]
  simp [h, hne]

/-- Simulation between the code's scan and the specification's scan: from
related states, and provided the first identifier differs from the code's
initial `last_id` value `None` whenever the map is still empty, the two
scans stay in lockstep (same map, same group counter, same sequence
counter). -/
theorem gqn_spec_sim : ∀ (ids : List Json) (sc : GState) (ss : SState),
    sc.qmap = ss.smap → sc.group = ss.group → sc.number = ss.seq →
    ((sc.qmap = [] ∧ sc.last = Json.null ∧ ss.lastSeen = none) ∨
      ((jlookup sc.last sc.qmap).isSome = true ∧ ss.lastSeen = some sc.last)) →
    (sc.qmap = [] → ∀ i, ids.head? = some i → i ≠ Json.null) →
    (gqnRun sc ids).qmap = (specRun ss ids).smap ∧
    (gqnRun sc ids).group = (specRun ss ids).group ∧
    (gqnRun sc ids).number = (specRun ss ids).seq := by
  intro ids
  induction ids with
  | nil => intro sc ss h1 h2 h3 _ _; exact ⟨h1, h2, h3⟩
  | cons i rest ih =>
    intro sc ss h1 h2 h3 hd hh
    rw [gqnRun, specRun]
    by_cases hmem : (jlookup i sc.qmap).isSome = true
    · have hmem2 : (jlookup i ss.smap).isSome = true := h1 ▸ hmem
      have hqne : sc.qmap ≠ [] := by
        intro hq
        rw [hq] at hmem
        simp [jlookup] at hmem
      have hd2 : ((jlookup sc.last sc.qmap).isSome = true ∧ ss.lastSeen = some sc.last) := by
        rcases hd with ⟨hq, _, _⟩ | hd2
        · exact absurd hq hqne
        · exact hd2
      rw [gqnStep_mem sc i hmem, specStep_mem ss i hmem2]
      exact ih _ _ h1 h2 (by simpa using h3) (Or.inr ⟨hd2.1, hd2.2⟩)
        (fun hq => absurd hq hqne)
    · have hnone : jlookup i sc.qmap = none :=
        Option.not_isSome_iff_eq_none.mp (by simpa using hmem)
      have hnone2 : jlookup i ss.smap = none := h1 ▸ hnone
      rcases hd with ⟨hq, hlast, hseen⟩ | ⟨hlsome, hseen⟩
      · have hne : i ≠ sc.last := by
          rw [hlast]
          exact hh hq i rfl
        have hne2 : some i ≠ ss.lastSeen := by rw [hseen]; simp
        rw [gqnStep_new sc i hnone hne, specStep_new ss i hnone2 hne2]
        refine ih _ _ (by simp [h1, h2]) (by simp [h2]) (by simp) ?_ ?_
        · refine Or.inr ⟨?_, rfl⟩
          simp only []
          rw [jlookup_append_self hnone]
          rfl
        · intro hq2
          exfalso
          revert hq2
          simp
      · have hne : i ≠ sc.last := by
          intro he
          rw [he] at hnone
          rw [hnone] at hlsome
          cases hlsome
        have hne2 : some i ≠ ss.lastSeen := by
          rw [hseen]
          intro he
          exact hne (Option.some.injEq _ _ ▸ he)
        rw [gqnStep_new sc i hnone hne, specStep_new ss i hnone2 hne2]
        refine ih _ _ (by simp [h1, h2]) (by simp [h2]) (by simp) ?_ ?_
        · refine Or.inr ⟨?_, rfl⟩
          simp only []
          rw [jlookup_append_self hnone]
          rfl
        · intro hq2
          exfalso
          revert hq2
          simp

/-- C1 (amended): `generate_question_numbers` implements exactly the stated
scan — same memo map, same group counter, same sequence counter after every
input — for every input list of comments whose first comment's identifier
is not `null`.  (The amendment is forced: the code's `lastSeenIdentifier`
starts as Python `None`, the same value as a JSON `null` identifier, rather
than as a value no identifier can equal.) -/
theorem gqn_matches_spec_scan (comments : List RawComment)
    (h : ∀ c, comments.head? = some c → c.id ≠ Json.null) :
    generate_question_numbers comments = specScanMap (comments.map (·.id))
    ∧ (gqnRun gqnInit (comments.map (·.id))).group
        = (specRun specInit (comments.map (·.id))).group
    ∧ (gqnRun gqnInit (comments.map (·.id))).number
        = (specRun specInit (comments.map (·.id))).seq := by
  have hh : ∀ i, (comments.map (·.id)).head? = some i → i ≠ Json.null := by
    intro i hi
    cases comments with
    | nil => cases hi
    | cons c rest =>
      have : c.id = i := by simpa using hi
      exact this ▸ h c rfl
  exact gqn_spec_sim (comments.map (·.id)) gqnInit specInit rfl rfl rfl
    (Or.inl ⟨rfl, rfl, rfl⟩) (fun _ => hh)

/-- C1 fails as stated: on the single comment whose identifier is `null`,
the code's scan labels it `0.0` — `last_id` starts as `None`, which *is* the
JSON `null` identifier, so the group increment and sequence reset are
skipped — while the specification's scan, whose `lastSeenIdentifier` starts
undefined, labels it `1.1`. -/
theorem gqn_spec_scan_counterexample :
    generate_question_numbers [⟨Json.null, Json.str "", Json.str "", Json.str ""⟩]
      = [(Json.null, "0.0")]
    ∧ specScanMap [Json.null] = [(Json.null, "1.1")]
    ∧ generate_question_numbers [⟨Json.null, Json.str "", Json.str "", Json.str ""⟩]
        ≠ specScanMap [Json.null] := by
  refine ⟨rfl, rfl, ?_⟩
  decide

/-- Closed instance of `gqn_matches_spec_scan` on identifiers `A, A, B`. -/
theorem gqn_matches_spec_scan_witness :
    generate_question_numbers
        [⟨Json.str "A", Json.str "", Json.str "", Json.str ""⟩,
         ⟨Json.str "A", Json.str "", Json.str "", Json.str ""⟩,
         ⟨Json.str "B", Json.str "", Json.str "", Json.str ""⟩]
      = specScanMap [Json.str "A", Json.str "A", Json.str "B"]
    ∧ specScanMap [Json.str "A", Json.str "A", Json.str "B"]
      = [(Json.str "A", "1.1"), (Json.str "B", "2.1")] :=
  ⟨(gqn_matches_spec_scan
      [⟨Json.str "A", Json.str "", Json.str "", Json.str ""⟩,
       ⟨Json.str "A", Json.str "", Json.str "", Json.str ""⟩,
       ⟨Json.str "B", Json.str "", Json.str "", Json.str ""⟩]
      (by intro c hc; cases hc; decide)).1,
   rfl⟩

/-! ### C2: every assigned label is `n.1` for the n-th distinct identifier -/

theorem mem_dfAux {α : Type} [DecidableEq α] : ∀ (l seen : List α) (x : α),
    x ∈ dfAux seen l ↔ x ∈ l ∧ x ∉ seen := by
  intro l
  induction l with
  | nil => intro seen x; simp [dfAux]
  | cons a rest ih =>
    intro seen x
    by_cases ha : a ∈ seen
    · rw [dfAux, if_pos ha, ih]
      simp only [List.mem_cons]
      constructor
      · rintro ⟨hx, hns⟩; exact ⟨Or.inr hx, hns⟩
      · rintro ⟨hx | hx, hns⟩
        · exact absurd (hx ▸ ha) hns
        · exact ⟨hx, hns⟩
    · rw [dfAux, if_neg ha]
      simp only [List.mem_cons, ih, List.mem_append, List.mem_singleton]
      constructor
      · rintro (rfl | ⟨hx, hns⟩)
        · exact ⟨Or.inl rfl, ha⟩
        · exact ⟨Or.inr hx, fun hc => hns (Or.inl hc)⟩
      · rintro ⟨rfl | hx, hns⟩
        · exact Or.inl rfl
        · by_cases hxa : x = a
          · exact Or.inl hxa
          · exact Or.inr ⟨hx, by simp [hns, hxa]⟩

theorem dfAux_nodup {α : Type} [DecidableEq α] : ∀ (l seen : List α), (dfAux seen l).Nodup := by
  intro l
  induction l with
  | nil => intro seen; simp [dfAux]
  | cons a rest ih =>
    intro seen
    by_cases ha : a ∈ seen
    · rw [dfAux, if_pos ha]; exact ih seen
    · rw [dfAux, if_neg ha]
      refine List.nodup_cons.mpr ⟨?_, ih (seen ++ [a])⟩
      intro hmem
      exact ((mem_dfAux rest (seen ++ [a]) a).mp hmem).2 (by simp)

theorem dfAux_append {α : Type} [DecidableEq α] : ∀ (l seen : List α) (x : α),
    dfAux seen (l ++ [x]) = dfAux seen l ++ (if x ∈ seen ∨ x ∈ l then [] else [x]) := by
  intro l
  induction l with
  | nil =>
    intro seen x
    by_cases hx : x ∈ seen
    · simp [dfAux, hx]
    · simp [dfAux, hx]
  | cons a rest ih =>
    intro seen x
    by_cases ha : a ∈ seen
    · have hiff : (x ∈ seen ∨ x ∈ a :: rest) ↔ (x ∈ seen ∨ x ∈ rest) := by
        simp only [List.mem_cons]
        constructor
        · rintro (h | rfl | h)
          · exact Or.inl h
          · exact Or.inl ha
          · exact Or.inr h
        · rintro (h | h)
          · exact Or.inl h
          · exact Or.inr (Or.inr h)
      rw [List.cons_append, dfAux, if_pos ha, dfAux, if_pos ha, ih,
        if_congr hiff rfl rfl]
    · have hiff : (x ∈ seen ++ [a] ∨ x ∈ rest) ↔ (x ∈ seen ∨ x ∈ a :: rest) := by
        simp only [List.mem_append, List.mem_cons, List.not_mem_nil, or_false]
        tauto
      rw [List.cons_append, dfAux, if_neg ha, dfAux, if_neg ha, ih, if_congr hiff rfl rfl,
        List.cons_append]

theorem labelFrom_append : ∀ (d : List Json) (g : Nat) (x : Json),
    labelFrom g (d ++ [x]) = labelFrom g d ++ [(x, qlbl (g + d.length) 1)] := by
  intro d
  induction d with
  | nil => intro g x; simp [labelFrom]
  | cons a rest ih =>
    intro g x
    rw [List.cons_append, labelFrom, labelFrom, ih (g + 1)]
    have : g + 1 + rest.length = g + (a :: rest).length := by
      simp [List.length_cons]
      omega
    rw [this]
    rfl

theorem jlookup_labelFrom_isSome : ∀ (d : List Json) (g : Nat) (x : Json),
    (jlookup x (labelFrom g d)).isSome = true ↔ x ∈ d := by
  intro d
  induction d with
  | nil => intro g x; simp [labelFrom, jlookup]
  | cons a rest ih =>
    intro g x
    rw [labelFrom, jlookup]
    by_cases hax : a = x
    · simp [hax]
    · rw [if_neg hax, ih]
      simp only [List.mem_cons]
      constructor
      · exact Or.inr
      · rintro (rfl | h)
        · exact absurd rfl hax
        · exact h

theorem jlookup_labelFrom_get : ∀ (d : List Json), d.Nodup → ∀ (g n : Nat) (hn : n < d.length),
    jlookup (d.get ⟨n, hn⟩) (labelFrom g d) = some (qlbl (g + n) 1) := by
  intro d
  induction d with
  | nil => intro _ g n hn; cases hn
  | cons a rest ih =>
    intro hnd g n hn
    cases n with
    | zero => simp [labelFrom, jlookup]
    | succ m =>
      have hm : m < rest.length := Nat.lt_of_succ_lt_succ hn
      have hget : (a :: rest).get ⟨m + 1, hn⟩ = rest.get ⟨m, hm⟩ := rfl
      rw [hget, labelFrom, jlookup]
      have hane : ¬ a = rest.get ⟨m, hm⟩ := by
        intro he
        exact (List.nodup_cons.mp hnd).1 (he ▸ rest.get_mem m hm)
      rw [if_neg hane, ih (List.nodup_cons.mp hnd).2 (g + 1) m hm]
      have : g + 1 + m = g + (m + 1) := by omega
      rw [this]

/-- Simulation between the code's scan and the declarative first-occurrence
labeling: from a state describing a processed prefix `p`, the scan of the
remaining identifiers extends the map to the labeled distinct identifiers of
the whole input (provided the first identifier scanned from the empty map is
not `null`). -/
theorem gqn_distinct_sim : ∀ (ids : List Json) (st : GState) (p : List Json),
    st.qmap = labelFrom 1 (distinctFirst p) →
    st.group = (distinctFirst p).length →
    ((distinctFirst p = [] ∧ st.last = Json.null) ∨
      (jlookup st.last st.qmap).isSome = true) →
    (st.qmap = [] → ∀ i, ids.head? = some i → i ≠ Json.null) →
    (gqnRun st ids).qmap = labelFrom 1 (distinctFirst (p ++ ids)) := by
  intro ids
  induction ids with
  | nil => intro st p h1 _ _ _; simpa using h1
  | cons i rest ih =>
    intro st p h1 h2 hd hh
    rw [gqnRun]
    have happ : p ++ i :: rest = (p ++ [i]) ++ rest := by simp
    rw [happ]
    by_cases hmem : (jlookup i st.qmap).isSome = true
    · have hmemd : i ∈ distinctFirst p := by
        rw [h1] at hmem
        exact (jlookup_labelFrom_isSome _ 1 i).mp hmem
      have hmemp : i ∈ p := ((mem_dfAux p [] i).mp hmemd).1
      have hdf : distinctFirst (p ++ [i]) = distinctFirst p := by
        rw [distinctFirst, dfAux_append, if_pos (Or.inr hmemp)]
        simp [distinctFirst]
      have hqne : st.qmap ≠ [] := by
        intro hq
        rw [hq] at hmem
        simp [jlookup] at hmem
      rw [gqnStep_mem st i hmem]
      refine ih _ (p ++ [i]) (by rw [hdf]; exact h1) (by rw [hdf]; exact h2) ?_
        (fun hq => absurd hq hqne)
      rcases hd with ⟨hdf0, _⟩ | hsome
      · rw [hdf0] at h1
        exact absurd (by simpa [labelFrom] using h1) hqne
      · exact Or.inr hsome
    · have hnone : jlookup i st.qmap = none :=
        Option.not_isSome_iff_eq_none.mp (by simpa using hmem)
      have hmemd : i ∉ distinctFirst p := by
        intro hc
        rw [h1] at hnone
        have := (jlookup_labelFrom_isSome _ 1 i).mpr hc
        rw [hnone] at this
        cases this
      have hmemp : i ∉ p := fun hc => hmemd ((mem_dfAux p [] i).mpr ⟨hc, by simp⟩)
      have hdf : distinctFirst (p ++ [i]) = distinctFirst p ++ [i] := by
        rw [distinctFirst, dfAux_append, if_neg (by simp [hmemp])]
        rfl
      have hne : i ≠ st.last := by
        rcases hd with ⟨hdf0, hlast⟩ | hsome
        · rw [hlast]
          apply hh
          · rw [h1, hdf0]; rfl
          · rfl
        · intro he
          rw [← he, hnone] at hsome
          cases hsome
      rw [gqnStep_new st i hnone hne]
      refine ih _ (p ++ [i]) ?_ ?_ ?_ ?_
      · simp only []
        rw [hdf, h1, h2, labelFrom_append]
        have : 1 + (distinctFirst p).length = (distinctFirst p).length + 1 := by omega
        rw [this]
      · simp only []
        rw [hdf, h2]
        simp
      · refine Or.inr ?_
        simp only []
        rw [jlookup_append_self hnone]
        rfl
      · intro hq
        exfalso
        revert hq
        simp

/-- C2 (amended): for every input list of comments whose first comment's
identifier is not `null`, the question-number map is exactly the distinct
identifiers in order of first appearance labeled `1.1`, `2.1`, ... — in
particular the n-th distinct identifier is assigned exactly `n.1`, so every
produced label has sequence component 1.  (The amendment is forced: when the
first identifier is `null` it equals the initial `last_id = None`, the group
increment and sequence reset are skipped, and the label `0.0` is
produced.) -/
theorem gqn_first_distinct_labels (comments : List RawComment)
    (h : ∀ c, comments.head? = some c → c.id ≠ Json.null) :
    generate_question_numbers comments
      = labelFrom 1 (distinctFirst (comments.map (·.id)))
    ∧ ∀ (n : Nat) (hn : n < (distinctFirst (comments.map (·.id))).length),
        jlookup ((distinctFirst (comments.map (·.id))).get ⟨n, hn⟩)
            (generate_question_numbers comments)
          = some (qlbl (n + 1) 1) := by
  have hh : ∀ i, (comments.map (·.id)).head? = some i → i ≠ Json.null := by
    intro i hi
    cases comments with
    | nil => cases hi
    | cons c rest =>
      have hci : c.id = i := by simpa using hi
      exact hci ▸ h c rfl
  have hmain : generate_question_numbers comments
      = labelFrom 1 (distinctFirst (comments.map (·.id))) := by
    have := gqn_distinct_sim (comments.map (·.id)) gqnInit [] rfl rfl
      (Or.inl ⟨rfl, rfl⟩) (fun _ => hh)
    simpa [generate_question_numbers] using this
  refine ⟨hmain, ?_⟩
  intro n hn
  have hnd : (distinctFirst (comments.map (·.id))).Nodup := by
    rw [distinctFirst]
    exact dfAux_nodup _ _
  rw [hmain, jlookup_labelFrom_get (distinctFirst (comments.map (·.id))) hnd 1 n hn]
  have : 1 + n = n + 1 := by omega
  rw [this]

/-- C2 fails as stated: on the single comment whose identifier is `null`,
the first distinct identifier is assigned `0.0`, whose sequence component is
0, not the claimed `1.1`. -/
theorem gqn_first_distinct_labels_counterexample :
    generate_question_numbers [⟨Json.null, Json.str "", Json.str "", Json.str ""⟩]
      = [(Json.null, "0.0")]
    ∧ distinctFirst ([⟨Json.null, Json.str "", Json.str "", Json.str ""⟩].map
        (RawComment.id)) = [Json.null]
    ∧ jlookup Json.null
        (generate_question_numbers [⟨Json.null, Json.str "", Json.str "", Json.str ""⟩])
        ≠ some (qlbl 1 1) := by
  refine ⟨rfl, rfl, ?_⟩
  decide

/-- Closed instance of `gqn_first_distinct_labels` on identifiers
`A, A, B, B, B, C`: labels are `1.1`, `2.1`, `3.1`. -/
theorem gqn_first_distinct_labels_witness :
    generate_question_numbers
        ([Json.str "A", Json.str "A", Json.str "B",
          Json.str "B", Json.str "B", Json.str "C"].map
          (fun i => ⟨i, Json.str "", Json.str "", Json.str ""⟩))
      = [(Json.str "A", "1.1"), (Json.str "B", "2.1"), (Json.str "C", "3.1")] :=
  ((gqn_first_distinct_labels
      ([Json.str "A", Json.str "A", Json.str "B",
        Json.str "B", Json.str "B", Json.str "C"].map
        (fun i => ⟨i, Json.str "", Json.str "", Json.str ""⟩))
      (by intro c hc; cases hc; decide)).1).trans rfl

/-! ### C5: the metadata table -/

theorem formatDateJson_str (v : String) : formatDateJson (.str v) = .str (format_date v) := by
  by_cases hv : v = ""
  · subst hv; rfl
  · simp [formatDateJson, pyTruthy, hv]

/-- One metadata item from the source shape `{key: k, value: v}` reduces to
a dict write of the (possibly reformatted) value. -/
theorem metaStep_encode (acc : List (Json × Json)) (k v : String) :
    metaStep acc (encodeMetaItem (k, v))
      = .ok (dictInsert acc (.str k) (.str (fmtMetaVal k v))) := by
  by_cases h1 : strContains k "DATE"
  · simp [metaStep, encodeMetaItem, Json.mkObj, JObj.ofList, pyItem, JObj.find, pyInJson, h1,
      fmtMetaVal, isDateKey, formatDateJson_str]
  · by_cases h2 : strContains k "DATETIME"
    · simp [metaStep, encodeMetaItem, Json.mkObj, JObj.ofList, pyItem, JObj.find, pyInJson,
        h1, h2, fmtMetaVal, isDateKey, formatDateJson_str]
    · simp [metaStep, encodeMetaItem, Json.mkObj, JObj.ofList, pyItem, JObj.find, pyInJson,
        h1, h2, fmtMetaVal, isDateKey]

theorem tblFind_map_str (f : String → Json) : ∀ (d : List String) (k : String),
    tblFind (Json.str k) (d.map (fun x => (Json.str x, f x)))
      = if k ∈ d then some (f k) else none := by
  intro d
  induction d with
  | nil => intro k; simp [tblFind]
  | cons a rest ih =>
    intro k
    by_cases hak : a = k
    · subst hak
      simp [tblFind]
    · rw [List.map_cons, tblFind, if_neg (by simp [hak]), ih]
      by_cases hk : k ∈ rest
      · rw [if_pos hk, if_pos (List.mem_cons_of_mem a hk)]
      · rw [if_neg hk, if_neg (by
          intro hc
          rcases List.mem_cons.mp hc with rfl | hc2
          · exact hak rfl
          · exact hk hc2)]

theorem lastVal_append (k : String) : ∀ (p : List (String × String)) (k2 v : String),
    lastVal k (p ++ [(k2, v)]) = if k2 = k then some v else lastVal k p := by
  intro p
  induction p with
  | nil =>
    intro k2 v
    by_cases h : k2 = k <;> simp [lastVal, h]
  | cons kv rest ih =>
    intro k2 v
    rw [List.cons_append, lastVal, ih]
    by_cases h : k2 = k
    · simp [h]
    · simp only [if_neg h]
      rfl

theorem mem_distinctFirst {α : Type} [DecidableEq α] (l : List α) (x : α) :
    x ∈ distinctFirst l ↔ x ∈ l := by
  rw [distinctFirst, mem_dfAux]
  simp

/-- The dict write for a new source row matches extending the declarative
table by that row. -/
theorem dictInsert_specTable (p : List (String × String)) (k v : String) :
    dictInsert (specTable p) (.str k) (.str (fmtMetaVal k v)) = specTable (p ++ [(k, v)]) := by
  have hkeys : (p ++ [(k, v)]).map (·.1) = p.map (·.1) ++ [k] := by simp
  have hfind := tblFind_map_str
    (fun x => Json.str (fmtMetaVal x ((lastVal x p).getD ""))) (distinctFirst (p.map (·.1))) k
  by_cases hk : k ∈ p.map (·.1)
  · have hkd : k ∈ distinctFirst (p.map (·.1)) := (mem_distinctFirst _ k).mpr hk
    have hdf : distinctFirst ((p ++ [(k, v)]).map (·.1)) = distinctFirst (p.map (·.1)) := by
      rw [hkeys, distinctFirst, dfAux_append, if_pos (Or.inr hk)]
      simp [distinctFirst]
    rw [specTable, dictInsert, hfind, if_pos hkd]
    simp only [Option.isSome_some, if_true]
    rw [specTable, hdf, List.map_map]
    apply List.map_congr_left
    intro x hx
    by_cases hxk : x = k
    · subst hxk
      simp [lastVal_append]
    · have hne : ¬ Json.str x = Json.str k := by simp [hxk]
      have hcond : ¬ (k = x) := fun hc => hxk hc.symm
      simp only [Function.comp_apply, hne, if_neg]
      rw [lastVal_append, if_neg hcond]
      simp
  · have hkd : k ∉ distinctFirst (p.map (·.1)) := fun hc => hk ((mem_distinctFirst _ k).mp hc)
    have hdf : distinctFirst ((p ++ [(k, v)]).map (·.1))
        = distinctFirst (p.map (·.1)) ++ [k] := by
      rw [hkeys, distinctFirst, dfAux_append, if_neg (by simp [hk])]
      rfl
    rw [specTable, dictInsert, hfind, if_neg hkd]
    simp only [Option.isSome_none, Bool.false_eq_true, if_false]
    rw [specTable, hdf, List.map_append]
    congr 1
    · apply List.map_congr_left
      intro x hx
      have hxk : ¬ x = k := by
        intro he
        exact hkd (he ▸ hx)
      have hcond : ¬ (k = x) := fun hc => hxk hc.symm
      rw [lastVal_append, if_neg hcond]
    · simp [lastVal_append]

theorem metaLoop_encode : ∀ (items pref : List (String × String)),
    metaLoop (specTable pref) (items.map encodeMetaItem) = .ok (specTable (pref ++ items)) := by
  intro items
  induction items with
  | nil => intro pref; simp [metaLoop]
  | cons kv rest ih =>
    intro pref
    obtain ⟨k, v⟩ := kv
    rw [List.map_cons, metaLoop, metaStep_encode, dictInsert_specTable]
    show metaLoop (specTable (pref ++ [(k, v)])) (List.map encodeMetaItem rest)
      = Except.ok (specTable (pref ++ (k, v) :: rest))
    rw [ih (pref ++ [(k, v)]), List.append_assoc]
    rfl

/-- C5: for every source `metaData` sequence of `{key, value}` records, the
resulting metadata table has exactly one (field, value) pair per distinct
key, ordered by the key's first occurrence, and each key carries the
(possibly date-reformatted) value of its last occurrence — a later repeat
overwrites the value without moving the key's position. -/
theorem metadata_table_spec (items : List (String × String)) :
    metaLoop [] (items.map encodeMetaItem) = .ok (specTable items) := by
  have h := metaLoop_encode items []
  simpa using h

/-! ### C9: partial documents traverse without raising -/

/-- A well-formed optional array field iterates to a list of well-formed
elements (absence iterating as the empty default). -/
theorem wfOptArr_iter (p : Json → Bool) (o : Option Json) (h : wfOptArr p o = true) :
    ∃ items, pyIter (o.getD (Json.mkArr [])) = .ok items ∧ ∀ x ∈ items, p x = true := by
  cases o with
  | none => exact ⟨[], rfl, by simp⟩
  | some j =>
    cases j with
    | arr xs =>
      refine ⟨xs.toList, rfl, ?_⟩
      intro x hx
      simp only [wfOptArr] at h
      exact List.all_eq_true.mp h x hx
    | null => simp [wfOptArr] at h
    | bool b => simp [wfOptArr] at h
    | num n => simp [wfOptArr] at h
    | str s => simp [wfOptArr] at h
    | obj kvs => simp [wfOptArr] at h

theorem metaStep_ok_of_wf : ∀ (item : Json), wfMetaItem item = true →
    ∀ acc, ∃ acc2, metaStep acc item = .ok acc2 := by
  intro item hwf acc
  cases item with
  | obj kvs =>
    simp only [wfMetaItem, Bool.and_eq_true] at hwf
    obtain ⟨hkey, hval⟩ := hwf
    rcases hfk : kvs.find "key" with _ | k
    · rw [hfk] at hkey; cases hkey
    · cases k with
      | str ks =>
        obtain ⟨v, hv⟩ := Option.isSome_iff_exists.mp hval
        by_cases hd : strContains ks "DATE" = true
        · exact ⟨dictInsert acc (.str ks) (formatDateJson v),
            by simp [metaStep, pyItem, hfk, hv, pyInJson, hd]⟩
        · by_cases hd2 : strContains ks "DATETIME" = true
          · exact ⟨dictInsert acc (.str ks) (formatDateJson v),
              by simp [metaStep, pyItem, hfk, hv, pyInJson, hd, hd2]⟩
          · exact ⟨dictInsert acc (.str ks) v,
              by simp [metaStep, pyItem, hfk, hv, pyInJson, hd, hd2]⟩
      | null => rw [hfk] at hkey; cases hkey
      | bool b => rw [hfk] at hkey; cases hkey
      | num n => rw [hfk] at hkey; cases hkey
      | arr a => rw [hfk] at hkey; cases hkey
      | obj o => rw [hfk] at hkey; cases hkey
  | null => simp [wfMetaItem] at hwf
  | bool b => simp [wfMetaItem] at hwf
  | num n => simp [wfMetaItem] at hwf
  | str s => simp [wfMetaItem] at hwf
  | arr a => simp [wfMetaItem] at hwf

theorem metaLoop_ok_of_wf : ∀ (items : List Json), (∀ x ∈ items, wfMetaItem x = true) →
    ∀ acc, ∃ r, metaLoop acc items = .ok r := by
  intro items
  induction items with
  | nil => intro _ acc; exact ⟨acc, rfl⟩
  | cons item rest ih =>
    intro hall acc
    obtain ⟨acc2, h2⟩ := metaStep_ok_of_wf item (hall item (List.mem_cons_self _ _)) acc
    simp only [metaLoop, h2]
    exact ih (fun x hx => hall x (List.mem_cons_of_mem _ hx)) acc2

theorem opStep_ok (tid : Json) (okvs opkvs : JObj) (acc : List RawComment) :
    ∃ acc2, opStep tid (.obj okvs) acc (.obj opkvs) = .ok acc2 :=
  ⟨_, rfl⟩

theorem opLoop_ok (tid : Json) (okvs : JObj) : ∀ (ops : List Json),
    (∀ o ∈ ops, isObjB o = true) →
    ∀ acc, ∃ acc2, opLoop tid (.obj okvs) acc ops = .ok acc2 := by
  intro ops
  induction ops with
  | nil => intro _ acc; exact ⟨acc, rfl⟩
  | cons op rest ih =>
    intro hall acc
    have hop := hall op (List.mem_cons_self _ _)
    cases op with
    | obj opkvs =>
      obtain ⟨acc2, h2⟩ := opStep_ok tid okvs opkvs acc
      simp only [opLoop, h2]
      exact ih (fun o ho => hall o (List.mem_cons_of_mem _ ho)) acc2
    | null => simp [isObjB] at hop
    | bool b => simp [isObjB] at hop
    | num n => simp [isObjB] at hop
    | str s => simp [isObjB] at hop
    | arr a => simp [isObjB] at hop

theorem obsStep_ok (tid : Json) : ∀ (obs : Json), wfObs obs = true →
    ∀ acc, ∃ acc2, obsStep tid acc obs = .ok acc2 := by
  intro obs hwf acc
  cases obs with
  | obj okvs =>
    simp only [wfObs] at hwf
    by_cases hc : pyTruthy ((okvs.find "comments").getD Json.null) = true
    · obtain ⟨ops, hops, hall⟩ := wfOptArr_iter isObjB (okvs.find "initialOperatorComments") hwf
      obtain ⟨acc2, h2⟩ := opLoop_ok tid okvs ops hall acc
      refine ⟨acc2, ?_⟩
      simp only [obsStep, pyGet, hc, if_true]
      rw [hops]
      exact h2
    · refine ⟨acc, ?_⟩
      simp only [obsStep, pyGet, hc]
      simp [hc]
  | null => simp [wfObs] at hwf
  | bool b => simp [wfObs] at hwf
  | num n => simp [wfObs] at hwf
  | str s => simp [wfObs] at hwf
  | arr a => simp [wfObs] at hwf

theorem obsLoop_ok (tid : Json) : ∀ (obss : List Json), (∀ o ∈ obss, wfObs o = true) →
    ∀ acc, ∃ acc2, obsLoop tid acc obss = .ok acc2 := by
  intro obss
  induction obss with
  | nil => intro _ acc; exact ⟨acc, rfl⟩
  | cons obs rest ih =>
    intro hall acc
    obtain ⟨acc2, h2⟩ := obsStep_ok tid obs (hall obs (List.mem_cons_self _ _)) acc
    simp only [obsLoop, h2]
    exact ih (fun o ho => hall o (List.mem_cons_of_mem _ ho)) acc2

theorem respStep_ok (tid : Json) : ∀ (resp : Json), wfResp resp = true →
    ∀ acc, ∃ acc2, respStep tid acc resp = .ok acc2 := by
  intro resp hwf acc
  cases resp with
  | obj rkvs =>
    simp only [wfResp] at hwf
    obtain ⟨obss, hobss, hall⟩ := wfOptArr_iter wfObs (rkvs.find "observations") hwf
    obtain ⟨acc2, h2⟩ := obsLoop_ok tid obss hall acc
    refine ⟨acc2, ?_⟩
    simp only [respStep, pyGet]
    rw [hobss]
    exact h2
  | null => simp [wfResp] at hwf
  | bool b => simp [wfResp] at hwf
  | num n => simp [wfResp] at hwf
  | str s => simp [wfResp] at hwf
  | arr a => simp [wfResp] at hwf

theorem respLoop_ok (tid : Json) : ∀ (resps : List Json), (∀ r ∈ resps, wfResp r = true) →
    ∀ acc, ∃ acc2, respLoop tid acc resps = .ok acc2 := by
  intro resps
  induction resps with
  | nil => intro _ acc; exact ⟨acc, rfl⟩
  | cons resp rest ih =>
    intro hall acc
    obtain ⟨acc2, h2⟩ := respStep_ok tid resp (hall resp (List.mem_cons_self _ _)) acc
    simp only [respLoop, h2]
    exact ih (fun r hr => hall r (List.mem_cons_of_mem _ hr)) acc2

theorem qStep_ok : ∀ (q : Json), wfQ q = true →
    ∀ acc, ∃ acc2, qStep acc q = .ok acc2 := by
  intro q hwf acc
  cases q with
  | obj qkvs =>
    simp only [wfQ, Bool.and_eq_true] at hwf
    obtain ⟨resps, hresps, hall⟩ := wfOptArr_iter wfResp (qkvs.find "complexResponses") hwf.2
    obtain ⟨acc2, h2⟩ := respLoop_ok ((qkvs.find "templateQuestionId").getD (.str "")) resps hall acc
    refine ⟨acc2, ?_⟩
    simp only [qStep, pyGet]
    rw [hresps]
    exact h2
  | null => simp [wfQ] at hwf
  | bool b => simp [wfQ] at hwf
  | num n => simp [wfQ] at hwf
  | str s => simp [wfQ] at hwf
  | arr a => simp [wfQ] at hwf

theorem qLoop_ok : ∀ (qs : List Json), (∀ q ∈ qs, wfQ q = true) →
    ∀ acc, ∃ acc2, qLoop acc qs = .ok acc2 := by
  intro qs
  induction qs with
  | nil => intro _ acc; exact ⟨acc, rfl⟩
  | cons q rest ih =>
    intro hall acc
    obtain ⟨acc2, h2⟩ := qStep_ok q (hall q (List.mem_cons_self _ _)) acc
    simp only [qLoop, h2]
    exact ih (fun x hx => hall x (List.mem_cons_of_mem _ hx)) acc2

/-- The rows phase never fails: every collected identifier is in the map. -/
theorem buildRows_ok (comments : List RawComment) : ∃ rows, buildRows comments = .ok rows := by
  refine ⟨_, rowsLoop_ok (generate_question_numbers comments) comments ?_⟩
  intro c hc
  exact gqnRun_covers (comments.map (·.id)) gqnInit c.id (List.mem_map_of_mem _ hc)

/-- C9: on every well-formed partial document — one shaped as the data
model types it, in which each of the optional fields `metaData`,
`questions`, `templateQuestionId`, `complexResponses`, `observations`,
`comments`, `initialOperatorComments` and `commentDate` may be absent, and
a present `templateQuestionId` is a string identifier — the traversal
treats absence as empty, completes without raising, and returns the two
tables; the error branch is unreachable. -/
theorem traversal_tolerates_partial_documents (j : Json) (hwf : wfDoc j = true) :
    (∃ md rows, traverse j = .ok (md, rows))
    ∧ (process_inspection_data j).errorMsg = none := by
  have hok : ∃ md rows, traverse j = .ok (md, rows) := by
    cases j with
    | obj kvs =>
      simp only [wfDoc, Bool.and_eq_true] at hwf
      obtain ⟨hmeta, hq⟩ := hwf
      obtain ⟨items, hitems, halli⟩ := wfOptArr_iter wfMetaItem (kvs.find "metaData") hmeta
      obtain ⟨md, hmd⟩ := metaLoop_ok_of_wf items halli []
      obtain ⟨qs, hqs, hallq⟩ := wfOptArr_iter wfQ (kvs.find "questions") hq
      obtain ⟨comments, hcs⟩ := qLoop_ok qs hallq []
      obtain ⟨rows, hrows⟩ := buildRows_ok comments
      refine ⟨md, rows, ?_⟩
      rw [traverse.eq_def]
      simp only [pyGet, collectComments, hitems, hmd, hqs, hcs, hrows]
    | null => simp [wfDoc] at hwf
    | bool b => simp [wfDoc] at hwf
    | num n => simp [wfDoc] at hwf
    | str s => simp [wfDoc] at hwf
    | arr a => simp [wfDoc] at hwf
  refine ⟨hok, ?_⟩
  obtain ⟨md, rows, htr⟩ := hok
  by_cases htru : pyTruthy j = true
  · simp [process_inspection_data, htru, htr]
  · simp [process_inspection_data, htru]

/-- Closed instance of `traversal_tolerates_partial_documents` on a partial
document missing most optional fields. -/
theorem traversal_tolerates_partial_documents_witness :
    (∃ md rows, traverse (Json.mkObj
        [("metaData", Json.mkArr [Json.mkObj
            [("key", Json.str "VESSEL"), ("value", Json.str "x")]]),
         ("questions", Json.mkArr [Json.mkObj
            [("templateQuestionId", Json.str "q1")]])]) = .ok (md, rows))
    ∧ (process_inspection_data (Json.mkObj
        [("metaData", Json.mkArr [Json.mkObj
            [("key", Json.str "VESSEL"), ("value", Json.str "x")]]),
         ("questions", Json.mkArr [Json.mkObj
            [("templateQuestionId", Json.str "q1")]])])).errorMsg = none :=
  traversal_tolerates_partial_documents _ (by decide)

/-! ### C8: aggressive repair when no brace exists -/

/-- C8 (amended): when the first strict parse fails and the
control-character-stripped text contains no `{` at all, the aggressive
repair pass fails by raising — `split('{', 1)[1]` raises `IndexError`, which
the inner `except json.JSONDecodeError` does not catch — and the outcome is
the outer handler's generic file-loading error, not a parse failure carrying
the JSON parser's error detail. -/
theorem no_brace_means_error_loading (cs : List Char)
    (hparse : parseJsonL (stage4 cs) = none)
    (hnb : (aggressiveClean (stage4 cs)).contains '{' = false) :
    processFile cs = .errorLoading := by
  rw [processFile, hparse]
  have hhead : ¬ (aggressiveClean (stage4 cs)).head? = some '{' := by
    intro hh
    cases hcl : aggressiveClean (stage4 cs) with
    | nil => rw [hcl] at hh; cases hh
    | cons c rest =>
      rw [hcl] at hh
      have hc : c = '{' := by
        have := Option.some.injEq c '{' ▸ hh
        simpa using hh
      subst hc
      rw [hcl] at hnb
      simp [List.contains_cons] at hnb
  have hnb2 : ¬ (aggressiveClean (stage4 cs)).contains '{' = true := by
    rw [hnb]
    simp
  simp only [if_neg hhead, if_neg hnb2]

/-- C8 fails as stated: on the input `hello` the first parse fails and the
cleaned text has no brace, yet the handler reports the generic loading
error, not the parse-failure outcome carrying the parser's detail. -/
theorem no_brace_counterexample :
    parseJsonL (stage4 ['h', 'e', 'l', 'l', 'o']) = none
    ∧ (aggressiveClean (stage4 ['h', 'e', 'l', 'l', 'o'])).contains '{' = false
    ∧ processFile ['h', 'e', 'l', 'l', 'o'] = .errorLoading
    ∧ processFile ['h', 'e', 'l', 'l', 'o'] ≠ .invalidJson := by
  refine ⟨rfl, rfl, rfl, ?_⟩
  decide

/-- Closed instance of `no_brace_means_error_loading`. -/
theorem no_brace_means_error_loading_witness :
    processFile ['a', 'b'] = .errorLoading :=
  no_brace_means_error_loading ['a', 'b'] rfl rfl

/-! ### C3: valid JSON beginning with a brace and a quote -/

/-- C3 fails as stated: the text `{",a":1}` is valid JSON beginning with the
two characters `{"` — it parses to an object with the key `,a` — yet the
handler's first repair pattern `{",` matches it, the prefix is rewritten,
the repaired text no longer parses, and the outcome is a parse failure
rather than the parsed tree. -/
theorem valid_json_prefix_counterexample :
    parseJsonL ['{', '"', ',', 'a', '"', ':', '1', '}']
      = some (Json.mkObj [(",a", Json.num (.fin false "1" "" ""))])
    ∧ headMatches ['{', '"'] ['{', '"', ',', 'a', '"', ':', '1', '}'] = true
    ∧ prefixRepair ['{', '"', ',', 'a', '"', ':', '1', '}']
        ≠ ['{', '"', ',', 'a', '"', ':', '1', '}']
    ∧ processFile ['{', '"', ',', 'a', '"', ':', '1', '}'] = .invalidJson := by
  refine ⟨rfl, rfl, ?_, rfl⟩
  decide

/-! ### Lexer metatheory: fuel -/

theorem lexGo_mono : ∀ (f : Nat) (cs : List Char) (acc ts : List Tok),
    lexGo f cs acc = some ts → lexGo (f + 1) cs acc = some ts := by
  intro f
  induction f with
  | zero => intro cs acc ts h; cases h
  | succ f ih =>
    intro cs acc ts h
    rw [lexGo] at h ⊢
    cases hstep : lexStep cs with
    | done => rw [hstep] at h; exact h
    | skip rest =>
      rw [hstep] at h
      exact ih _ _ _ h
    | tok t rest =>
      rw [hstep] at h
      exact ih _ _ _ h
    | fail =>
      rw [hstep] at h
      cases h

theorem lexGo_mono_le : ∀ (f f' : Nat), f ≤ f' → ∀ (cs : List Char) (acc ts : List Tok),
    lexGo f cs acc = some ts → lexGo f' cs acc = some ts := by
  intro f f' hle
  induction hle with
  | refl => intro cs acc ts h; exact h
  | step h2 ih => intro cs acc ts h; exact lexGo_mono _ _ _ _ (ih _ _ _ h)

theorem takeDigits_eq (cs : List Char) :
    takeDigits cs = (cs.takeWhile isDig, cs.dropWhile isDig) := rfl

/-! ### Character goodness: lexeme characters are never CR or NUL -/

theorem good_of_ne (c : Char) (h1 : ¬ c = '\r') (h2 : ¬ c = '\x00') :
    (!(c = '\r') && !(c = '\x00')) = true := by
  simp [h1, h2]

theorem isDig_good (c : Char) (h : isDig c = true) :
    (!(c = '\r') && !(c = '\x00')) = true := by
  refine good_of_ne c ?_ ?_ <;> intro he <;> subst he <;> exact absurd h (by decide)

theorem hexVal_good (c : Char) (a : Nat) (h : hexVal? c = some a) :
    (!(c = '\r') && !(c = '\x00')) = true := by
  refine good_of_ne c ?_ ?_ <;> intro he <;> subst he
  · rw [show hexVal? '\r' = none from by decide] at h; cases h
  · rw [show hexVal? '\x00' = none from by decide] at h; cases h

theorem escChar_good (c ch : Char) (h : escChar c = some ch) :
    (!(c = '\r') && !(c = '\x00')) = true := by
  refine good_of_ne c ?_ ?_ <;> intro he <;> subst he
  · rw [show escChar '\r' = none from by decide] at h; cases h
  · rw [show escChar '\x00' = none from by decide] at h; cases h

/-! ### `dropLit`: exact-prefix consumption -/

theorem dropLit_decomp : ∀ (ps cs r : List Char), dropLit ps cs = some r → cs = ps ++ r := by
  intro ps
  induction ps with
  | nil =>
    intro cs r h
    simp only [dropLit, Option.some.injEq] at h
    simp [h]
  | cons p ps ih =>
    intro cs r h
    cases cs with
    | nil => simp only [dropLit] at h; cases h
    | cons c cs2 =>
      simp only [dropLit] at h
      by_cases hpc : p = c
      · rw [if_pos hpc] at h
        have h2 := ih cs2 r h
        subst hpc
        simp [h2]
      · rw [if_neg hpc] at h; cases h

theorem dropLit_self : ∀ (ps X : List Char), dropLit ps (ps ++ X) = some X := by
  intro ps
  induction ps with
  | nil => intro X; rfl
  | cons p ps ih => intro X; simp [dropLit, ih]

/-! ### `takeWhile`/`dropWhile` over a boundary -/

theorem takeWhile_append_all (p : Char → Bool) :
    ∀ (ds X : List Char), ds.all p = true → (∀ c, X.head? = some c → p c = false) →
    (ds ++ X).takeWhile p = ds ∧ (ds ++ X).dropWhile p = X := by
  intro ds
  induction ds with
  | nil =>
    intro X _ hX
    cases X with
    | nil => simp
    | cons c X2 =>
      have hc := hX c rfl
      simp [List.takeWhile_cons, List.dropWhile_cons, hc]
  | cons d ds ih =>
    intro X hall hX
    simp only [List.all_cons, Bool.and_eq_true] at hall
    have h2 := ih X hall.2 hX
    simp [List.takeWhile_cons, List.dropWhile_cons, hall.1, h2.1, h2.2]

/-! ### `scanFrac`/`scanExp` on inputs that cannot begin them -/

theorem scanFrac_skip (X : List Char) (hx : ∀ c, X.head? = some c → ¬ c = '.') :
    scanFrac X = ([], X) := by
  cases X with
  | nil => rfl
  | cons c r =>
    rw [scanFrac.eq_def]
    simp only
    rw [if_neg (hx c rfl)]

theorem scanExp_skip (X : List Char) (hx : ∀ c, X.head? = some c → (c = 'e' || c = 'E') = false) :
    scanExp X = ([], X) := by
  cases X with
  | nil => rfl
  | cons c r =>
    rw [scanExp.eq_def]
    simp only
    rw [if_neg (by simp [hx c rfl])]

theorem headNoNumExt_not_dig (X : List Char) (h : headNoNumExt X = true) :
    ∀ c, X.head? = some c → isDig c = false := by
  intro c hc
  cases X with
  | nil => cases hc
  | cons d r =>
    simp only [List.head?] at hc
    cases hc
    simp only [headNoNumExt, numExt, Bool.not_eq_true', Bool.or_eq_false_iff] at h
    exact h.1.1.1

theorem headNoNumExt_not_dot (X : List Char) (h : headNoNumExt X = true) :
    ∀ c, X.head? = some c → ¬ c = '.' := by
  intro c hc
  cases X with
  | nil => cases hc
  | cons d r =>
    simp only [List.head?] at hc
    cases hc
    simp only [headNoNumExt, numExt, Bool.not_eq_true', Bool.or_eq_false_iff] at h
    simpa using h.1.1.2

theorem headNoNumExt_not_exp (X : List Char) (h : headNoNumExt X = true) :
    ∀ c, X.head? = some c → (c = 'e' || c = 'E') = false := by
  intro c hc
  cases X with
  | nil => cases hc
  | cons d r =>
    simp only [List.head?] at hc
    cases hc
    simp only [headNoNumExt, numExt, Bool.not_eq_true', Bool.or_eq_false_iff] at h
    simp [h.1.2, h.2]

/-! ### `scanStr`: lexeme decomposition and remainder abstraction -/

theorem scanStr_master : ∀ (n : Nat) (cs : List Char), cs.length ≤ n →
    ∀ (a : List Char) (s : String) (r : List Char), scanStr a cs = some (s, r) →
    ∃ pre, cs = pre ++ r ∧ pre ≠ [] ∧
      pre.all (fun c => !(c = '\r') && !(c = '\x00')) = true ∧
      (∃ pre0, pre = pre0 ++ ['"']) ∧
      ∀ X, scanStr a (pre ++ X) = some (s, X) := by
  intro n
  induction n with
  | zero =>
    intro cs hle a s r h
    rw [List.length_eq_zero.mp (Nat.le_zero.mp hle)] at h
    cases h
  | succ n ih =>
    intro cs hle a s r h
    cases cs with
    | nil => cases h
    | cons c rest =>
      rw [scanStr.eq_def] at h
      simp only at h
      by_cases h1 : c = '"'
      · rw [if_pos h1] at h
        simp only [Option.some.injEq, Prod.mk.injEq] at h
        obtain ⟨hs, hr⟩ := h
        subst h1
        refine ⟨['"'], by simp [hr], by simp, by decide, ⟨[], rfl⟩, ?_⟩
        intro X
        rw [scanStr.eq_def]
        simp [hs]
      · rw [if_neg h1] at h
        by_cases h2 : c = '\\'
        · rw [if_pos h2] at h
          cases rest with
          | nil => cases h
          | cons e rest2 =>
            simp only at h
            by_cases h3 : e = 'u'
            · rw [if_pos h3] at h
              rcases rest2 with _ | ⟨a1, _ | ⟨a2, _ | ⟨a3, _ | ⟨a4, rest4⟩⟩⟩⟩
              · cases h
              · cases h
              · cases h
              · cases h
              · simp only at h
                split at h
                · rename_i v1 v2 v3 v4 hv1 hv2 hv3 hv4
                  obtain ⟨pre4, hcs4, hne4, hall4, ⟨pre0, hpre0⟩, hX4⟩ :=
                    ih rest4 (by simp only [List.length_cons] at hle ⊢; omega) _ _ _ h
                  subst h2; subst h3
                  refine ⟨'\\' :: 'u' :: a1 :: a2 :: a3 :: a4 :: pre4, by simp [hcs4],
                    by simp, ?_, ⟨'\\' :: 'u' :: a1 :: a2 :: a3 :: a4 :: pre0, by simp [hpre0]⟩, ?_⟩
                  · rw [List.all_eq_true]
                    intro x hx
                    simp only [List.mem_cons] at hx
                    rcases hx with rfl | rfl | rfl | rfl | rfl | rfl | hx
                    · decide
                    · decide
                    · exact hexVal_good _ _ hv1
                    · exact hexVal_good _ _ hv2
                    · exact hexVal_good _ _ hv3
                    · exact hexVal_good _ _ hv4
                    · exact List.all_eq_true.mp hall4 x hx
                  · intro X
                    simp only [List.cons_append]
                    rw [scanStr.eq_def]
                    simp [hv1, hv2, hv3, hv4, hX4 X]
                · cases h
            · rw [if_neg h3] at h
              split at h
              · rename_i ch hesc
                obtain ⟨pre2, hcs2, hne2, hall2, ⟨pre0, hpre0⟩, hX2⟩ :=
                  ih rest2 (by simp only [List.length_cons] at hle ⊢; omega) _ _ _ h
                subst h2
                refine ⟨'\\' :: e :: pre2, by simp [hcs2], by simp, ?_,
                  ⟨'\\' :: e :: pre0, by simp [hpre0]⟩, ?_⟩
                · rw [List.all_eq_true]
                  intro x hx
                  simp only [List.mem_cons] at hx
                  rcases hx with rfl | rfl | hx
                  · decide
                  · exact escChar_good _ _ hesc
                  · exact List.all_eq_true.mp hall2 x hx
                · intro X
                  simp only [List.cons_append]
                  rw [scanStr.eq_def]
                  simp [h3, hesc, hX2 X]
              · cases h
        · rw [if_neg h2] at h
          by_cases h4 : c.toNat < 32
          · rw [if_pos h4] at h
            cases h
          · rw [if_neg h4] at h
            obtain ⟨preR, hcsR, hneR, hallR, ⟨pre0, hpre0⟩, hXR⟩ :=
              ih rest (by simp only [List.length_cons] at hle ⊢; omega) _ _ _ h
            refine ⟨c :: preR, by simp [hcsR], by simp, ?_, ⟨c :: pre0, by simp [hpre0]⟩, ?_⟩
            · rw [List.all_eq_true]
              intro x hx
              simp only [List.mem_cons] at hx
              rcases hx with rfl | hx
              · refine good_of_ne x ?_ ?_
                · intro he; subst he; exact h4 (by decide)
                · intro he; subst he; exact h4 (by decide)
              · exact List.all_eq_true.mp hallR x hx
            · intro X
              simp only [List.cons_append]
              rw [scanStr.eq_def]
              simp only
              rw [if_neg h1, if_neg h2, if_neg h4]
              exact hXR X

/-! ### `scanFrac`/`scanExp`: lexeme decomposition and remainder abstraction -/

theorem scanFrac_master (cs fr r : List Char) (h : scanFrac cs = (fr, r)) :
    (fr = [] ∧ r = cs) ∨
    (cs = ('.' :: fr) ++ r ∧ fr ≠ [] ∧ fr.all isDig = true ∧
      ∀ X, (∀ d, X.head? = some d → isDig d = false) →
        scanFrac (('.' :: fr) ++ X) = (fr, X)) := by
  cases cs with
  | nil =>
    rw [scanFrac.eq_def] at h
    simp only [Prod.mk.injEq] at h
    exact Or.inl ⟨h.1.symm, h.2.symm⟩
  | cons c rest =>
    rw [scanFrac.eq_def] at h
    simp only [takeDigits_eq] at h
    by_cases hc : c = '.'
    · rw [if_pos hc] at h
      by_cases hds : rest.takeWhile isDig = []
      · rw [if_pos hds] at h
        simp only [Prod.mk.injEq] at h
        exact Or.inl ⟨h.1.symm, h.2.symm⟩
      · rw [if_neg hds] at h
        simp only [Prod.mk.injEq] at h
        obtain ⟨hfr, hr⟩ := h
        subst hc
        refine Or.inr ⟨?_, ?_, ?_, ?_⟩
        · rw [← hfr, ← hr]
          simp [List.takeWhile_append_dropWhile]
        · rw [← hfr]; exact hds
        · rw [← hfr]
          rw [List.all_eq_true]
          intro x hx
          exact List.mem_takeWhile_imp hx
        · intro X hX
          have hall : fr.all isDig = true := by
            rw [← hfr]
            rw [List.all_eq_true]
            intro x hx
            exact List.mem_takeWhile_imp hx
          have htw := takeWhile_append_all isDig fr X hall hX
          rw [scanFrac.eq_def]
          simp only [List.cons_append, takeDigits_eq]
          rw [if_pos trivial]
          simp only [htw.1, htw.2]
          rw [if_neg (by rw [hfr] at hds; exact hds)]
    · rw [if_neg hc] at h
      simp only [Prod.mk.injEq] at h
      exact Or.inl ⟨h.1.symm, h.2.symm⟩

theorem scanExp_master (cs ex r : List Char) (h : scanExp cs = (ex, r)) :
    (ex = [] ∧ r = cs) ∨
    (∃ e0 sgn ds, (e0 = 'e' ∨ e0 = 'E') ∧ (sgn = [] ∨ sgn = ['+'] ∨ sgn = ['-']) ∧
      ex = sgn ++ ds ∧ ds ≠ [] ∧ ds.all isDig = true ∧
      cs = (e0 :: (sgn ++ ds)) ++ r ∧
      ∀ X, (∀ d, X.head? = some d → isDig d = false) →
        scanExp ((e0 :: (sgn ++ ds)) ++ X) = (ex, X)) := by
  cases cs with
  | nil =>
    rw [scanExp.eq_def] at h
    simp only [Prod.mk.injEq] at h
    exact Or.inl ⟨h.1.symm, h.2.symm⟩
  | cons e rest =>
    rw [scanExp.eq_def] at h
    simp only [takeDigits_eq] at h
    by_cases he : (e = 'e' || e = 'E') = true
    · rw [if_pos he] at h
      cases rest with
      | nil =>
        simp only [List.takeWhile_nil, List.dropWhile_nil] at h
        rw [if_pos trivial] at h
        simp only [Prod.mk.injEq] at h
        exact Or.inl ⟨h.1.symm, h.2.symm⟩
      | cons s0 rest2 =>
        simp only at h
        by_cases hs : (s0 = '+' || s0 = '-') = true
        · rw [if_pos hs] at h
          simp only at h
          by_cases hds : rest2.takeWhile isDig = []
          · rw [if_pos hds] at h
            simp only [Prod.mk.injEq] at h
            exact Or.inl ⟨h.1.symm, h.2.symm⟩
          · rw [if_neg hds] at h
            simp only [Prod.mk.injEq] at h
            obtain ⟨hex, hr⟩ := h
            have hall : (rest2.takeWhile isDig).all isDig = true := by
              rw [List.all_eq_true]
              intro x hx
              exact List.mem_takeWhile_imp hx
            refine Or.inr ⟨e, [s0], rest2.takeWhile isDig, ?_, ?_, hex.symm, hds, hall, ?_, ?_⟩
            · rcases Bool.or_eq_true_iff.mp he with h1 | h1
              · exact Or.inl (by simpa using h1)
              · exact Or.inr (by simpa using h1)
            · rcases Bool.or_eq_true_iff.mp hs with h1 | h1
              · exact Or.inr (Or.inl (by simp [show s0 = '+' from by simpa using h1]))
              · exact Or.inr (Or.inr (by simp [show s0 = '-' from by simpa using h1]))
            · rw [← hr]
              simp [List.takeWhile_append_dropWhile]
            · intro X hX
              have htw := takeWhile_append_all isDig (rest2.takeWhile isDig) X hall hX
              rw [scanExp.eq_def]
              simp only [List.cons_append, List.singleton_append, takeDigits_eq]
              rw [if_pos he]
              rw [if_pos hs]
              simp only [List.nil_append, htw.1, htw.2]
              rw [if_neg hds, hex]
        · rw [if_neg hs] at h
          simp only at h
          by_cases hds : ((s0 :: rest2).takeWhile isDig) = []
          · rw [if_pos hds] at h
            simp only [Prod.mk.injEq] at h
            exact Or.inl ⟨h.1.symm, h.2.symm⟩
          · rw [if_neg hds] at h
            simp only [List.nil_append, Prod.mk.injEq] at h
            obtain ⟨hex, hr⟩ := h
            have hall : ((s0 :: rest2).takeWhile isDig).all isDig = true := by
              rw [List.all_eq_true]
              intro x hx
              exact List.mem_takeWhile_imp hx
            refine Or.inr ⟨e, [], (s0 :: rest2).takeWhile isDig, ?_, Or.inl rfl, by simp [hex],
              hds, hall, ?_, ?_⟩
            · rcases Bool.or_eq_true_iff.mp he with h1 | h1
              · exact Or.inl (by simpa using h1)
              · exact Or.inr (by simpa using h1)
            · rw [← hr]
              simp [List.takeWhile_append_dropWhile]
            · intro X hX
              have hs0 : isDig s0 = true := by
                by_contra hns
                exact hds (List.takeWhile_cons_of_neg (by simpa using hns))
              have hdseq : (s0 :: rest2).takeWhile isDig = s0 :: rest2.takeWhile isDig :=
                List.takeWhile_cons_of_pos hs0
              have htw := takeWhile_append_all isDig ((s0 :: rest2).takeWhile isDig) X hall hX
              rw [scanExp.eq_def]
              simp only [List.nil_append, List.cons_append, hdseq, takeDigits_eq]
              rw [if_pos he]
              rw [if_neg hs]
              have hsh : s0 :: (rest2.takeWhile isDig ++ X)
                  = (s0 :: rest2).takeWhile isDig ++ X := by
                rw [hdseq]; rfl
              rw [hsh, htw.1, htw.2, if_neg hds]
              simp [hex]
    · rw [if_neg he] at h
      simp only [Prod.mk.injEq] at h
      exact Or.inl ⟨h.1.symm, h.2.symm⟩


/-! ### The fraction-exponent tail of a number lexeme -/

theorem numTail_master (cs1 fr cs2 ex cs3 : List Char)
    (hfr : scanFrac cs1 = (fr, cs2)) (hex : scanExp cs2 = (ex, cs3)) :
    ∃ tpre, cs1 = tpre ++ cs3 ∧
      tpre.all (fun c => !(c = '\r') && !(c = '\x00')) = true ∧
      ((tpre = [] ∧ fr = [] ∧ ex = []) ∨ (∃ pre0 d, tpre = pre0 ++ [d] ∧ isDig d = true)) ∧
      (∀ X, headNoNumExt X = true → ∀ d0, (tpre ++ X).head? = some d0 → isDig d0 = false) ∧
      ∀ X, headNoNumExt X = true →
        ∃ Y, scanFrac (tpre ++ X) = (fr, Y) ∧ scanExp Y = (ex, X) := by
  rcases scanFrac_master cs1 fr cs2 hfr with ⟨hfr0, hcs2⟩ | ⟨hcs1, hfrne, hfrall, hfrX⟩
  · rcases scanExp_master cs2 ex cs3 hex with ⟨hex0, hcs3⟩ |
      ⟨e0, sgn, ds, he0, hsgn, hexeq, hdsne, hdsall, hcs2e, hexX⟩
    · refine ⟨[], by rw [← hcs2, ← hcs3]; simp, by simp, Or.inl ⟨rfl, hfr0, hex0⟩, ?_, ?_⟩
      · intro X hX d0 hd0
        simp only [List.nil_append] at hd0
        exact headNoNumExt_not_dig X hX d0 hd0
      · intro X hX
        refine ⟨X, ?_, ?_⟩
        · rw [hfr0, List.nil_append]
          exact scanFrac_skip X (headNoNumExt_not_dot X hX)
        · rw [hex0]
          exact scanExp_skip X (headNoNumExt_not_exp X hX)
    · have he0dig : isDig e0 = false := by
        rcases he0 with rfl | rfl <;> decide
      have he0dot : ¬ e0 = '.' := by
        rcases he0 with rfl | rfl <;> decide
      refine ⟨e0 :: (sgn ++ ds), by rw [← hcs2, hcs2e], ?_, ?_, ?_, ?_⟩
      · rw [List.all_eq_true]
        intro x hx
        simp only [List.mem_cons, List.mem_append] at hx
        rcases hx with rfl | hsg | hd
        · rcases he0 with rfl | rfl <;> decide
        · rcases hsgn with rfl | rfl | rfl
          · cases hsg
          · rw [List.mem_singleton] at hsg; subst hsg; decide
          · rw [List.mem_singleton] at hsg; subst hsg; decide
        · exact isDig_good x (List.all_eq_true.mp hdsall x hd)
      · rcases List.eq_nil_or_concat ds with rfl | ⟨L, d, rfl⟩
        · exact absurd rfl hdsne
        · refine Or.inr ⟨e0 :: (sgn ++ L), d, by simp, ?_⟩
          exact List.all_eq_true.mp hdsall d (by simp)
      · intro X hX d0 hd0
        simp only [List.cons_append, List.head?] at hd0
        cases hd0
        exact he0dig
      · intro X hX
        refine ⟨(e0 :: (sgn ++ ds)) ++ X, ?_, ?_⟩
        · rw [hfr0]
          refine scanFrac_skip _ ?_
          intro c hc
          simp only [List.cons_append, List.head?] at hc
          cases hc
          exact he0dot
        · exact hexX X (headNoNumExt_not_dig X hX)
  · rcases scanExp_master cs2 ex cs3 hex with ⟨hex0, hcs3⟩ |
      ⟨e0, sgn, ds, he0, hsgn, hexeq, hdsne, hdsall, hcs2e, hexX⟩
    · refine ⟨'.' :: fr, by rw [hcs1, ← hcs3], ?_, ?_, ?_, ?_⟩
      · rw [List.all_eq_true]
        intro x hx
        simp only [List.mem_cons] at hx
        rcases hx with rfl | hd
        · decide
        · exact isDig_good x (List.all_eq_true.mp hfrall x hd)
      · rcases List.eq_nil_or_concat fr with rfl | ⟨L, d, rfl⟩
        · exact absurd rfl hfrne
        · refine Or.inr ⟨'.' :: L, d, by simp, ?_⟩
          exact List.all_eq_true.mp hfrall d (by simp)
      · intro X hX d0 hd0
        simp only [List.cons_append, List.head?] at hd0
        cases hd0
        decide
      · intro X hX
        refine ⟨X, hfrX X (headNoNumExt_not_dig X hX), ?_⟩
        rw [hex0]
        exact scanExp_skip X (headNoNumExt_not_exp X hX)
    · have he0dig : isDig e0 = false := by
        rcases he0 with rfl | rfl <;> decide
      refine ⟨('.' :: fr) ++ (e0 :: (sgn ++ ds)), by rw [hcs1, hcs2e]; simp, ?_, ?_, ?_, ?_⟩
      · rw [List.all_eq_true]
        intro x hx
        simp only [List.mem_append, List.mem_cons] at hx
        rcases hx with (rfl | hd) | (rfl | hsg | hd)
        · decide
        · exact isDig_good x (List.all_eq_true.mp hfrall x hd)
        · rcases he0 with rfl | rfl <;> decide
        · rcases hsgn with rfl | rfl | rfl
          · cases hsg
          · rw [List.mem_singleton] at hsg; subst hsg; decide
          · rw [List.mem_singleton] at hsg; subst hsg; decide
        · exact isDig_good x (List.all_eq_true.mp hdsall x hd)
      · rcases List.eq_nil_or_concat ds with rfl | ⟨L, d, rfl⟩
        · exact absurd rfl hdsne
        · refine Or.inr ⟨('.' :: fr) ++ (e0 :: (sgn ++ L)), d, by simp, ?_⟩
          exact List.all_eq_true.mp hdsall d (by simp)
      · intro X hX d0 hd0
        simp only [List.cons_append, List.head?] at hd0
        cases hd0
        decide
      · intro X hX
        refine ⟨(e0 :: (sgn ++ ds)) ++ X, ?_, ?_⟩
        · have h2 := hfrX ((e0 :: (sgn ++ ds)) ++ X) ?_
          · simp only [List.cons_append, List.append_assoc] at h2 ⊢
            exact h2
          · intro d0 hd0
            simp only [List.cons_append, List.head?] at hd0
            cases hd0
            exact he0dig
        · exact hexX X (headNoNumExt_not_dig X hX)


/-! ### `scanNum`: lexeme decomposition and remainder abstraction -/

theorem scanNum_master (cs : List Char) (n : JNum) (r : List Char)
    (h : scanNum cs = some (n, r)) :
    ∃ pre, cs = pre ++ r ∧ pre ≠ [] ∧
      pre.all (fun c => !(c = '\r') && !(c = '\x00')) = true ∧
      (∃ pre0 d, pre = pre0 ++ [d] ∧ isDig d = true) ∧
      ∀ X, headNoNumExt X = true → scanNum (pre ++ X) = some (n, X) := by
  rw [scanNum.eq_def] at h
  rcases cs with _ | ⟨c, rest⟩
  · cases h
  · simp only at h
    by_cases hneg : c = '-'
    · rw [if_pos hneg] at h
      simp only at h
      rcases rest with _ | ⟨c2, rest2⟩
      · cases h
      · simp only at h
        by_cases h0 : c2 = '0'
        · rw [if_pos h0] at h
          simp only at h
          rw [if_neg (by simp)] at h
          rcases hfr : scanFrac rest2 with ⟨fr, cs2⟩
          rcases hex : scanExp cs2 with ⟨ex, cs3⟩
          rw [hfr] at h
          simp only at h
          rw [hex] at h
          simp only [Option.some.injEq, Prod.mk.injEq] at h
          obtain ⟨tpre, hteq, htall, htlast, hthead, htX⟩ :=
            numTail_master rest2 fr cs2 ex cs3 hfr hex
          subst hneg; subst h0
          refine ⟨'-' :: '0' :: tpre, by rw [← h.2]; simp [hteq], by simp, ?_, ?_, ?_⟩
          · rw [List.all_eq_true]
            intro x hx
            simp only [List.mem_cons] at hx
            rcases hx with rfl | rfl | hx
            · decide
            · decide
            · exact List.all_eq_true.mp htall x hx
          · rcases htlast with ⟨rfl, _, _⟩ | ⟨pre0, d, rfl, hd⟩
            · exact ⟨['-'], '0', by simp, by decide⟩
            · exact ⟨'-' :: '0' :: pre0, d, by simp, hd⟩
          · intro X hX
            obtain ⟨Y, hY1, hY2⟩ := htX X hX
            rw [scanNum.eq_def]
            simp only [List.cons_append]
            simp [hY1, hY2, ← h.1]
        · rw [if_neg h0] at h
          by_cases hd : isDig c2 = true
          · rw [if_pos hd] at h
            rw [takeDigits_eq] at h
            rw [List.takeWhile_cons_of_pos hd, List.dropWhile_cons_of_pos hd] at h
            simp only at h
            rw [if_neg (by simp)] at h
            rcases hfr : scanFrac (rest2.dropWhile isDig) with ⟨fr, cs2⟩
            rcases hex : scanExp cs2 with ⟨ex, cs3⟩
            rw [hfr] at h
            simp only at h
            rw [hex] at h
            simp only [Option.some.injEq, Prod.mk.injEq] at h
            obtain ⟨tpre, hteq, htall, htlast, hthead, htX⟩ :=
              numTail_master (rest2.dropWhile isDig) fr cs2 ex cs3 hfr hex
            have halltw : (rest2.takeWhile isDig).all isDig = true := by
              rw [List.all_eq_true]
              intro x hx
              exact List.mem_takeWhile_imp hx
            subst hneg
            refine ⟨'-' :: c2 :: (rest2.takeWhile isDig ++ tpre), ?_, by simp, ?_, ?_, ?_⟩
            · rw [← h.2]
              simp only [List.cons_append, List.cons.injEq, true_and, List.append_assoc]
              rw [← hteq]
              exact (List.takeWhile_append_dropWhile isDig rest2).symm
            · rw [List.all_eq_true]
              intro x hx
              simp only [List.mem_cons, List.mem_append] at hx
              rcases hx with rfl | rfl | hx | hx
              · decide
              · exact isDig_good x hd
              · exact isDig_good x (List.all_eq_true.mp halltw x hx)
              · exact List.all_eq_true.mp htall x hx
            · rcases htlast with ⟨rfl, _, _⟩ | ⟨pre0, d, rfl, hdd⟩
              · rcases List.eq_nil_or_concat (rest2.takeWhile isDig) with htw | ⟨L, d, htw⟩
                · exact ⟨['-'], c2, by simp [htw], hd⟩
                · refine ⟨'-' :: c2 :: L, d, by simp [htw], ?_⟩
                  exact List.all_eq_true.mp halltw d (by simp [htw])
              · exact ⟨'-' :: c2 :: (rest2.takeWhile isDig ++ pre0), d, by simp, hdd⟩
            · intro X hX
              obtain ⟨Y, hY1, hY2⟩ := htX X hX
              have htw := takeWhile_append_all isDig (rest2.takeWhile isDig) (tpre ++ X)
                halltw (hthead X hX)
              rw [scanNum.eq_def]
              simp only [List.cons_append, List.append_assoc]
              simp [h0, hd, takeDigits_eq, htw.1, htw.2, hY1, hY2, ← h.1]
          · rw [if_neg hd] at h
            simp at h
    · rw [if_neg hneg] at h
      simp only at h
      by_cases h0 : c = '0'
      · rw [if_pos h0] at h
        simp only at h
        rw [if_neg (by simp)] at h
        rcases hfr : scanFrac rest with ⟨fr, cs2⟩
        rcases hex : scanExp cs2 with ⟨ex, cs3⟩
        rw [hfr] at h
        simp only at h
        rw [hex] at h
        simp only [Option.some.injEq, Prod.mk.injEq] at h
        obtain ⟨tpre, hteq, htall, htlast, hthead, htX⟩ :=
          numTail_master rest fr cs2 ex cs3 hfr hex
        subst h0
        refine ⟨'0' :: tpre, by rw [← h.2]; simp [hteq], by simp, ?_, ?_, ?_⟩
        · rw [List.all_eq_true]
          intro x hx
          simp only [List.mem_cons] at hx
          rcases hx with rfl | hx
          · decide
          · exact List.all_eq_true.mp htall x hx
        · rcases htlast with ⟨rfl, _, _⟩ | ⟨pre0, d, rfl, hd⟩
          · exact ⟨[], '0', by simp, by decide⟩
          · exact ⟨'0' :: pre0, d, by simp, hd⟩
        · intro X hX
          obtain ⟨Y, hY1, hY2⟩ := htX X hX
          rw [scanNum.eq_def]
          simp only [List.cons_append]
          simp [hneg, hY1, hY2, ← h.1]
      · rw [if_neg h0] at h
        by_cases hd : isDig c = true
        · rw [if_pos hd] at h
          rw [takeDigits_eq] at h
          rw [List.takeWhile_cons_of_pos hd, List.dropWhile_cons_of_pos hd] at h
          simp only at h
          rw [if_neg (by simp)] at h
          rcases hfr : scanFrac (rest.dropWhile isDig) with ⟨fr, cs2⟩
          rcases hex : scanExp cs2 with ⟨ex, cs3⟩
          rw [hfr] at h
          simp only at h
          rw [hex] at h
          simp only [Option.some.injEq, Prod.mk.injEq] at h
          obtain ⟨tpre, hteq, htall, htlast, hthead, htX⟩ :=
            numTail_master (rest.dropWhile isDig) fr cs2 ex cs3 hfr hex
          have halltw : (rest.takeWhile isDig).all isDig = true := by
            rw [List.all_eq_true]
            intro x hx
            exact List.mem_takeWhile_imp hx
          refine ⟨c :: (rest.takeWhile isDig ++ tpre), ?_, by simp, ?_, ?_, ?_⟩
          · rw [← h.2]
            simp only [List.cons_append, List.cons.injEq, true_and, List.append_assoc]
            rw [← hteq]
            exact (List.takeWhile_append_dropWhile isDig rest).symm
          · rw [List.all_eq_true]
            intro x hx
            simp only [List.mem_cons, List.mem_append] at hx
            rcases hx with rfl | hx | hx
            · exact isDig_good x hd
            · exact isDig_good x (List.all_eq_true.mp halltw x hx)
            · exact List.all_eq_true.mp htall x hx
          · rcases htlast with ⟨rfl, _, _⟩ | ⟨pre0, d, rfl, hdd⟩
            · rcases List.eq_nil_or_concat (rest.takeWhile isDig) with htw | ⟨L, d, htw⟩
              · exact ⟨[], c, by simp [htw], hd⟩
              · refine ⟨c :: L, d, by simp [htw], ?_⟩
                exact List.all_eq_true.mp halltw d (by simp [htw])
            · exact ⟨c :: (rest.takeWhile isDig ++ pre0), d, by simp, hdd⟩
          · intro X hX
            obtain ⟨Y, hY1, hY2⟩ := htX X hX
            have htw := takeWhile_append_all isDig (rest.takeWhile isDig) (tpre ++ X)
              halltw (hthead X hX)
            rw [scanNum.eq_def]
            simp only [List.cons_append, List.append_assoc]
            simp [hneg, h0, hd, takeDigits_eq, htw.1, htw.2, hY1, hY2, ← h.1]
        · rw [if_neg hd] at h
          simp at h


theorem scanNum_neg_none (d : Char) (Z : List Char) (h0 : ¬ d = '0') (hd : isDig d = false) :
    scanNum ('-' :: d :: Z) = none := by
  simp [scanNum, h0, hd]

theorem isDig_not_pyWs (d : Char) (hd : isDig d = true) : pyWsChar d = false := by
  simp only [isDig, Bool.and_eq_true, decide_eq_true_eq] at hd
  by_contra hpw
  simp only [Bool.not_eq_false] at hpw
  simp only [pyWsChar, Bool.or_eq_true, Bool.and_eq_true, decide_eq_true_eq] at hpw
  rcases hpw with ((((((((((h | ⟨_, h⟩) | ⟨_, h⟩) | h) | h) | h) | ⟨h, _⟩) | h) | h) | h) | h) | h
  · subst h; exact absurd hd.1 (by decide)
  · exact absurd (le_trans hd.1 h) (by decide)
  · exact absurd (le_trans hd.1 h) (by decide)
  · subst h; exact absurd hd.2 (by decide)
  · subst h; exact absurd hd.2 (by decide)
  · subst h; exact absurd hd.2 (by decide)
  · exact absurd (le_trans h hd.2) (by decide)
  · subst h; exact absurd hd.2 (by decide)
  · subst h; exact absurd hd.2 (by decide)
  · subst h; exact absurd hd.2 (by decide)
  · subst h; exact absurd hd.2 (by decide)
  · subst h; exact absurd hd.2 (by decide)

/-! ### One dispatch of the lexer: skip, a decomposed token, or failure -/

theorem lexStep_cases (c : Char) (rest : List Char) :
    (jsonWs c = true ∧ lexStep (c :: rest) = .skip rest) ∨
    (∃ t pre r, lexStep (c :: rest) = .tok t r ∧ c :: rest = pre ++ r ∧ pre ≠ [] ∧
      pre.all (fun x => !(x = '\r') && !(x = '\x00')) = true ∧
      (∀ d, pre.getLast? = some d → pyWsChar d = false) ∧
      (∀ X, ((∃ j, t = Tok.lit j) → headNoNumExt X = true) → lexStep (pre ++ X) = .tok t X)) ∨
    lexStep (c :: rest) = .fail := by
  by_cases h1 : jsonWs c = true
  · exact Or.inl ⟨h1, by simp [lexStep, h1]⟩
  by_cases h2 : c = '{'
  · subst h2
    refine Or.inr (Or.inl ⟨.lbrace, ['{'], rest, by simp [lexStep, jsonWs], rfl, by simp, by decide,
      ?_, fun X _ => by simp [lexStep, jsonWs]⟩)
    intro d hd
    rw [show (['{'] : List Char).getLast? = some '{' from rfl] at hd
    cases hd; decide
  by_cases h3 : c = '}'
  · subst h3
    refine Or.inr (Or.inl ⟨.rbrace, ['}'], rest, by simp [lexStep, jsonWs], rfl, by simp, by decide,
      ?_, fun X _ => by simp [lexStep, jsonWs]⟩)
    intro d hd
    rw [show (['}'] : List Char).getLast? = some '}' from rfl] at hd
    cases hd; decide
  by_cases h4 : c = '['
  · subst h4
    refine Or.inr (Or.inl ⟨.lbrack, ['['], rest, by simp [lexStep, jsonWs], rfl, by simp, by decide,
      ?_, fun X _ => by simp [lexStep, jsonWs]⟩)
    intro d hd
    rw [show (['['] : List Char).getLast? = some '[' from rfl] at hd
    cases hd; decide
  by_cases h5 : c = ']'
  · subst h5
    refine Or.inr (Or.inl ⟨.rbrack, [']'], rest, by simp [lexStep, jsonWs], rfl, by simp, by decide,
      ?_, fun X _ => by simp [lexStep, jsonWs]⟩)
    intro d hd
    rw [show (([']'] : List Char)).getLast? = some ']' from rfl] at hd
    cases hd; decide
  by_cases h6 : c = ':'
  · subst h6
    refine Or.inr (Or.inl ⟨.colon, [':'], rest, by simp [lexStep, jsonWs], rfl, by simp, by decide,
      ?_, fun X _ => by simp [lexStep, jsonWs]⟩)
    intro d hd
    rw [show (([':'] : List Char)).getLast? = some ':' from rfl] at hd
    cases hd; decide
  by_cases h7 : c = ','
  · subst h7
    refine Or.inr (Or.inl ⟨.comma, [','], rest, by simp [lexStep, jsonWs], rfl, by simp, by decide,
      ?_, fun X _ => by simp [lexStep, jsonWs]⟩)
    intro d hd
    rw [show (([','] : List Char)).getLast? = some ',' from rfl] at hd
    cases hd; decide
  by_cases h8 : c = '"'
  · subst h8
    rcases hscan : scanStr [] rest with _ | ⟨s, r2⟩
    · exact Or.inr (Or.inr (by simp [lexStep, jsonWs, hscan]))
    · obtain ⟨preS, hrest, hSne, hSall, ⟨pre0, hpre0⟩, hSX⟩ :=
        scanStr_master rest.length rest le_rfl [] s r2 hscan
      refine Or.inr (Or.inl ⟨.lit (.str s), '"' :: preS, r2, by simp [lexStep, jsonWs, hscan],
        by simp [hrest], by simp, ?_, ?_, ?_⟩)
      · rw [List.all_eq_true]
        intro x hx
        simp only [List.mem_cons] at hx
        rcases hx with rfl | hx
        · decide
        · exact List.all_eq_true.mp hSall x hx
      · intro d hd
        rw [hpre0, show ('"' :: (pre0 ++ ['"'])) = ('"' :: pre0) ++ ['"'] from by simp,
          List.getLast?_concat] at hd
        cases hd; decide
      · intro X _
        have hrepl := hSX X
        simp [lexStep, jsonWs, hrepl]
  by_cases h9 : (isDig c || c = '-') = true
  · rcases hnum : scanNum (c :: rest) with _ | ⟨nn, r2⟩
    · by_cases hneg : c = '-'
      · subst hneg
        rcases hdrop : dropLit ['I', 'n', 'f', 'i', 'n', 'i', 't', 'y'] rest with _ | r2
        · exact Or.inr (Or.inr (by simp [lexStep, jsonWs, isDig, hnum, hdrop]))
        · have hd2 := dropLit_decomp _ _ _ hdrop
          refine Or.inr (Or.inl ⟨.lit (.num .neginf), ['-', 'I', 'n', 'f', 'i', 'n', 'i', 't', 'y'],
            r2, by simp [lexStep, jsonWs, isDig, hnum, hdrop], by simp [hd2], by simp, by decide, ?_, ?_⟩)
          · intro d hd
            rw [show ((['-', 'I', 'n', 'f', 'i', 'n', 'i', 't', 'y'] : List Char)).getLast?
              = some 'y' from rfl] at hd
            cases hd; decide
          · intro X _
            have hsn : scanNum ('-' :: 'I' :: 'n' :: 'f' :: 'i' :: 'n' :: 'i' :: 't' :: 'y' :: X)
                = none := scanNum_neg_none 'I' _ (by decide) (by decide)
            have hdl : dropLit ['I', 'n', 'f', 'i', 'n', 'i', 't', 'y']
                ('I' :: 'n' :: 'f' :: 'i' :: 'n' :: 'i' :: 't' :: 'y' :: X) = some X :=
              dropLit_self ['I', 'n', 'f', 'i', 'n', 'i', 't', 'y'] X
            simp [lexStep, jsonWs, isDig, hsn, hdl]
      · have hd9 : isDig c = true := by
          rcases Bool.or_eq_true_iff.mp h9 with hh | hh
          · exact hh
          · exact absurd (by simpa using hh) hneg
        exact Or.inr (Or.inr
          (by simp [lexStep, h1, h2, h3, h4, h5, h6, h7, h8, hd9, hnum, hneg]))
    · obtain ⟨preN, hcs, hNne, hNall, ⟨pre0, d, hpre0, hdd⟩, hNX⟩ := scanNum_master _ nn r2 hnum
      rcases preN with _ | ⟨p0, preN'⟩
      · exact absurd rfl hNne
      · rw [List.cons_append] at hcs
        injection hcs with ha hb
        subst ha
        refine Or.inr (Or.inl ⟨.lit (.num nn), c :: preN', r2,
          by simp [lexStep, h1, h2, h3, h4, h5, h6, h7, h8, h9, hnum],
          by simp [hb], by simp, hNall, ?_, ?_⟩)
        · intro d0 hd0
          rw [hpre0, List.getLast?_concat] at hd0
          cases hd0
          exact isDig_not_pyWs _ hdd
        · intro X hg
          have hX := hg ⟨.num nn, rfl⟩
          have hrepl := hNX X hX
          simp only [List.cons_append] at hrepl
          simp [lexStep, h1, h2, h3, h4, h5, h6, h7, h8, h9, hrepl]
  by_cases h10 : c = 't'
  · subst h10
    rcases hdrop : dropLit ['r', 'u', 'e'] rest with _ | r2
    · exact Or.inr (Or.inr (by simp [lexStep, jsonWs, isDig, hdrop]))
    · have hd2 := dropLit_decomp _ _ _ hdrop
      refine Or.inr (Or.inl ⟨.lit (.bool true), ['t', 'r', 'u', 'e'], r2,
        by simp [lexStep, jsonWs, isDig, hdrop], by simp [hd2], by simp, by decide, ?_, ?_⟩)
      · intro d hd
        rw [show ((['t', 'r', 'u', 'e'] : List Char)).getLast? = some 'e' from rfl] at hd
        cases hd; decide
      · intro X _
        have hdl : dropLit ['r', 'u', 'e'] ('r' :: 'u' :: 'e' :: X) = some X :=
          dropLit_self ['r', 'u', 'e'] X
        simp [lexStep, jsonWs, isDig, hdl]
  by_cases h11 : c = 'f'
  · subst h11
    rcases hdrop : dropLit ['a', 'l', 's', 'e'] rest with _ | r2
    · exact Or.inr (Or.inr (by simp [lexStep, jsonWs, isDig, hdrop]))
    · have hd2 := dropLit_decomp _ _ _ hdrop
      refine Or.inr (Or.inl ⟨.lit (.bool false), ['f', 'a', 'l', 's', 'e'], r2,
        by simp [lexStep, jsonWs, isDig, hdrop], by simp [hd2], by simp, by decide, ?_, ?_⟩)
      · intro d hd
        rw [show ((['f', 'a', 'l', 's', 'e'] : List Char)).getLast? = some 'e' from rfl] at hd
        cases hd; decide
      · intro X _
        have hdl : dropLit ['a', 'l', 's', 'e'] ('a' :: 'l' :: 's' :: 'e' :: X) = some X :=
          dropLit_self ['a', 'l', 's', 'e'] X
        simp [lexStep, jsonWs, isDig, hdl]
  by_cases h12 : c = 'n'
  · subst h12
    rcases hdrop : dropLit ['u', 'l', 'l'] rest with _ | r2
    · exact Or.inr (Or.inr (by simp [lexStep, jsonWs, isDig, hdrop]))
    · have hd2 := dropLit_decomp _ _ _ hdrop
      refine Or.inr (Or.inl ⟨.lit .null, ['n', 'u', 'l', 'l'], r2,
        by simp [lexStep, jsonWs, isDig, hdrop], by simp [hd2], by simp, by decide, ?_, ?_⟩)
      · intro d hd
        rw [show ((['n', 'u', 'l', 'l'] : List Char)).getLast? = some 'l' from rfl] at hd
        cases hd; decide
      · intro X _
        have hdl : dropLit ['u', 'l', 'l'] ('u' :: 'l' :: 'l' :: X) = some X :=
          dropLit_self ['u', 'l', 'l'] X
        simp [lexStep, jsonWs, isDig, hdl]
  by_cases h13 : c = 'N'
  · subst h13
    rcases hdrop : dropLit ['a', 'N'] rest with _ | r2
    · exact Or.inr (Or.inr (by simp [lexStep, jsonWs, isDig, hdrop]))
    · have hd2 := dropLit_decomp _ _ _ hdrop
      refine Or.inr (Or.inl ⟨.lit (.num .nan), ['N', 'a', 'N'], r2,
        by simp [lexStep, jsonWs, isDig, hdrop], by simp [hd2], by simp, by decide, ?_, ?_⟩)
      · intro d hd
        rw [show ((['N', 'a', 'N'] : List Char)).getLast? = some 'N' from rfl] at hd
        cases hd; decide
      · intro X _
        have hdl : dropLit ['a', 'N'] ('a' :: 'N' :: X) = some X :=
          dropLit_self ['a', 'N'] X
        simp [lexStep, jsonWs, isDig, hdl]
  by_cases h14 : c = 'I'
  · subst h14
    rcases hdrop : dropLit ['n', 'f', 'i', 'n', 'i', 't', 'y'] rest with _ | r2
    · exact Or.inr (Or.inr (by simp [lexStep, jsonWs, isDig, hdrop]))
    · have hd2 := dropLit_decomp _ _ _ hdrop
      refine Or.inr (Or.inl ⟨.lit (.num .inf), ['I', 'n', 'f', 'i', 'n', 'i', 't', 'y'], r2,
        by simp [lexStep, jsonWs, isDig, hdrop], by simp [hd2], by simp, by decide, ?_, ?_⟩)
      · intro d hd
        rw [show ((['I', 'n', 'f', 'i', 'n', 'i', 't', 'y'] : List Char)).getLast?
          = some 'y' from rfl] at hd
        cases hd; decide
      · intro X _
        have hdl : dropLit ['n', 'f', 'i', 'n', 'i', 't', 'y']
            ('n' :: 'f' :: 'i' :: 'n' :: 'i' :: 't' :: 'y' :: X) = some X :=
          dropLit_self ['n', 'f', 'i', 'n', 'i', 't', 'y'] X
        simp [lexStep, jsonWs, isDig, hdl]
  · exact Or.inr (Or.inr
      (by simp [lexStep, h1, h2, h3, h4, h5, h6, h7, h8, h9, h10, h11, h12, h13, h14]))

/-! ### Accumulated tokens are a prefix of the lexer output -/

theorem lexGo_acc_prefix : ∀ (f : Nat) (cs : List Char) (acc ts : List Tok),
    lexGo f cs acc = some ts → ∃ tl, ts = acc.reverse ++ tl := by
  intro f
  induction f with
  | zero => intro cs acc ts h; cases h
  | succ f ih =>
    intro cs acc ts h
    rw [lexGo] at h
    cases hstep : lexStep cs with
    | done =>
      rw [hstep] at h
      simp only [Option.some.injEq] at h
      exact ⟨[], by simp [← h]⟩
    | skip rest =>
      rw [hstep] at h
      exact ih _ _ _ h
    | tok t rest =>
      rw [hstep] at h
      obtain ⟨tl, htl⟩ := ih _ _ _ h
      exact ⟨t :: tl, by simp [htl]⟩
    | fail => rw [hstep] at h; cases h

/-! ### Adjacent literal tokens -/

theorem noAdj_mid : ∀ (xs : List Tok) (j j' : Json) (ys : List Tok),
    noAdjToks (xs ++ .lit j :: .lit j' :: ys) = false := by
  intro xs
  induction xs with
  | nil => intro j j' ys; rfl
  | cons x xs ih =>
    intro j j' ys
    have ihm := ih j j' ys
    rcases hM : xs ++ Tok.lit j :: Tok.lit j' :: ys with _ | ⟨m0, M'⟩
    · exact absurd hM (by simp)
    · rw [List.cons_append, hM]
      rw [hM] at ihm
      cases x <;> cases m0 <;> simp only [noAdjToks] <;> exact ihm

theorem noAdjToks_cons (t : Tok) (rest : List Tok) (h : noAdjToks (t :: rest) = true) :
    noAdjToks rest = true := by
  rcases rest with _ | ⟨r0, rest'⟩
  · rfl
  · cases t <;> cases r0 <;> simp only [noAdjToks] at h ⊢ <;>
      first
      | exact h
      | exact absurd h (by simp)

/-! ### A digit head always lexes to a number literal -/

theorem scanNum_pos_some (d : Char) (Z : List Char) (hd : isDig d = true) :
    ∃ n2 r3, scanNum (d :: Z) = some (n2, r3) := by
  have hneg : ¬ d = '-' := fun he => by rw [he] at hd; exact absurd hd (by decide)
  by_cases h0 : d = '0'
  · subst h0
    refine ⟨JNum.fin false "0" ⟨(scanFrac Z).1⟩ ⟨(scanExp (scanFrac Z).2).1⟩,
      (scanExp (scanFrac Z).2).2, ?_⟩
    simp [scanNum, hneg]
  · refine ⟨JNum.fin false ⟨d :: Z.takeWhile isDig⟩ ⟨(scanFrac (Z.dropWhile isDig)).1⟩
      ⟨(scanExp (scanFrac (Z.dropWhile isDig)).2).1⟩,
      (scanExp (scanFrac (Z.dropWhile isDig)).2).2, ?_⟩
    simp only [scanNum, takeDigits_eq]
    rw [if_neg hneg]
    simp only
    rw [if_neg h0, if_pos hd]
    simp only [List.takeWhile_cons_of_pos hd, List.dropWhile_cons_of_pos hd]
    rw [if_neg (by simp)]

theorem jsonWs_of_isDig (d : Char) (hd : isDig d = true) : jsonWs d = false := by
  by_contra hw
  simp only [Bool.not_eq_false] at hw
  simp only [jsonWs, Bool.or_eq_true, decide_eq_true_eq] at hw
  rcases hw with ((rfl | rfl) | rfl) | rfl <;> exact absurd hd (by decide)

theorem lexStep_digit (d : Char) (Z : List Char) (n2 : JNum) (r3 : List Char)
    (hd : isDig d = true) (hsn : scanNum (d :: Z) = some (n2, r3)) :
    lexStep (d :: Z) = .tok (.lit (.num n2)) r3 := by
  have hws := jsonWs_of_isDig d hd
  have hA : ¬ d = '{' := fun he => by rw [he] at hd; exact absurd hd (by decide)
  have hB : ¬ d = '}' := fun he => by rw [he] at hd; exact absurd hd (by decide)
  have hC : ¬ d = '[' := fun he => by rw [he] at hd; exact absurd hd (by decide)
  have hD : ¬ d = ']' := fun he => by rw [he] at hd; exact absurd hd (by decide)
  have hE : ¬ d = ':' := fun he => by rw [he] at hd; exact absurd hd (by decide)
  have hF : ¬ d = ',' := fun he => by rw [he] at hd; exact absurd hd (by decide)
  have hG : ¬ d = '"' := fun he => by rw [he] at hd; exact absurd hd (by decide)
  simp [lexStep, hws, hA, hB, hC, hD, hE, hF, hG, hd, hsn]

/-! ### After a literal token, the remaining text cannot extend a number -/

theorem headNoNumExt_of_continue (r2 : List Char) (acc : List Tok) (j : Json) (g : Nat)
    (ts : List Tok) (h : lexGo g r2 (.lit j :: acc) = some ts) (hadj : noAdjToks ts = true) :
    headNoNumExt r2 = true := by
  cases r2 with
  | nil => rfl
  | cons d r3 =>
    simp only [headNoNumExt, Bool.not_eq_true']
    by_contra hne
    simp only [Bool.not_eq_false] at hne
    simp only [numExt, Bool.or_eq_true, decide_eq_true_eq] at hne
    cases g with
    | zero => cases h
    | succ g =>
      rw [lexGo] at h
      rcases hne with ((hdig | rfl) | rfl) | rfl
      · obtain ⟨n2, r3', hsn⟩ := scanNum_pos_some d r3 hdig
        rw [lexStep_digit d r3 n2 r3' hdig hsn] at h
        obtain ⟨tl, htl⟩ := lexGo_acc_prefix _ _ _ _ h
        rw [htl] at hadj
        simp only [List.reverse_cons, List.append_assoc] at hadj
        rw [show ([Tok.lit j] ++ ([Tok.lit (Json.num n2)] ++ tl))
            = Tok.lit j :: Tok.lit (Json.num n2) :: tl from rfl] at hadj
        rw [noAdj_mid] at hadj
        cases hadj
      · rw [show lexStep ('.' :: r3) = .fail from by simp [lexStep, jsonWs, isDig]] at h
        cases h
      · rw [show lexStep ('e' :: r3) = .fail from by simp [lexStep, jsonWs, isDig]] at h
        cases h
      · rw [show lexStep ('E' :: r3) = .fail from by simp [lexStep, jsonWs, isDig]] at h
        cases h

/-! ### Whitespace handling in the lexer loop -/

theorem lexStep_ws (c : Char) (X : List Char) (hc : jsonWs c = true) :
    lexStep (c :: X) = .skip X := by
  simp [lexStep, hc]

theorem lexGo_ws_prefix : ∀ (run : List Char), run.all jsonWs = true →
    ∀ (f : Nat) (rest : List Char) (acc ts : List Tok),
    lexGo f (run ++ rest) acc = some ts → ∃ g, lexGo g rest acc = some ts := by
  intro run
  induction run with
  | nil => intro _ f rest acc ts h; exact ⟨f, h⟩
  | cons c run ih =>
    intro hall f rest acc ts h
    simp only [List.all_cons, Bool.and_eq_true] at hall
    cases f with
    | zero => cases h
    | succ f =>
      rw [List.cons_append, lexGo, lexStep_ws c _ hall.1] at h
      exact ih hall.2 f rest acc ts h

theorem pyws_fail (c : Char) (X : List Char) (hp : pyWsChar c = true)
    (hj : jsonWs c = false) : lexStep (c :: X) = .fail := by
  have hA : ¬ c = '{' := fun he => by rw [he] at hp; exact absurd hp (by decide)
  have hB : ¬ c = '}' := fun he => by rw [he] at hp; exact absurd hp (by decide)
  have hC : ¬ c = '[' := fun he => by rw [he] at hp; exact absurd hp (by decide)
  have hD : ¬ c = ']' := fun he => by rw [he] at hp; exact absurd hp (by decide)
  have hE : ¬ c = ':' := fun he => by rw [he] at hp; exact absurd hp (by decide)
  have hF : ¬ c = ',' := fun he => by rw [he] at hp; exact absurd hp (by decide)
  have hG : ¬ c = '"' := fun he => by rw [he] at hp; exact absurd hp (by decide)
  have hT : ¬ c = 't' := fun he => by rw [he] at hp; exact absurd hp (by decide)
  have hFa : ¬ c = 'f' := fun he => by rw [he] at hp; exact absurd hp (by decide)
  have hN : ¬ c = 'n' := fun he => by rw [he] at hp; exact absurd hp (by decide)
  have hNa : ¬ c = 'N' := fun he => by rw [he] at hp; exact absurd hp (by decide)
  have hI : ¬ c = 'I' := fun he => by rw [he] at hp; exact absurd hp (by decide)
  have hDash : ¬ c = '-' := fun he => by rw [he] at hp; exact absurd hp (by decide)
  have hdig : isDig c = false := by
    by_contra hg
    simp only [Bool.not_eq_false] at hg
    rw [isDig_not_pyWs c hg] at hp
    cases hp
  simp [lexStep, hj, hA, hB, hC, hD, hE, hF, hG, hT, hFa, hN, hNa, hI, hDash, hdig]

theorem lexGo_pyws_only : ∀ (f : Nat) (tail : List Char), tail.all pyWsChar = true →
    ∀ (acc ts : List Tok), lexGo f tail acc = some ts → ts = acc.reverse := by
  intro f
  induction f with
  | zero => intro tail _ acc ts h; cases h
  | succ f ih =>
    intro tail hall acc ts h
    cases tail with
    | nil =>
      rw [lexGo, show lexStep ([] : List Char) = .done from rfl] at h
      simp only [Option.some.injEq] at h
      exact h.symm
    | cons c tail2 =>
      simp only [List.all_cons, Bool.and_eq_true] at hall
      by_cases hj : jsonWs c = true
      · rw [lexGo, lexStep_ws c _ hj] at h
        exact ih tail2 hall.2 acc ts h
      · rw [lexGo, pyws_fail c _ hall.1 (Bool.eq_false_iff.mpr hj)] at h
        cases h

/-! ### Canonical fuel suffices -/

theorem lexGo_enough : ∀ (L : Nat) (cs : List Char), cs.length ≤ L →
    ∀ (f : Nat) (acc ts : List Tok), lexGo f cs acc = some ts →
    lexGo (L + 1) cs acc = some ts := by
  intro L
  induction L with
  | zero =>
    intro cs hle f acc ts h
    have hnil := List.length_eq_zero.mp (Nat.le_zero.mp hle)
    subst hnil
    cases f with
    | zero => cases h
    | succ f =>
      rw [lexGo] at h ⊢
      rw [show lexStep ([] : List Char) = .done from rfl] at h ⊢
      exact h
  | succ L ih =>
    intro cs hle f acc ts h
    cases f with
    | zero => cases h
    | succ f =>
      rw [lexGo] at h ⊢
      cases cs with
      | nil =>
        rw [show lexStep ([] : List Char) = .done from rfl] at h ⊢
        exact h
      | cons c rest =>
        rcases lexStep_cases c rest with ⟨hw, he⟩ | ⟨t, pre, r, he, hcs, hne, _, _, _⟩ | he
        · rw [he] at h ⊢
          exact ih rest (by simp only [List.length_cons] at hle; omega) f acc ts h
        · rw [he] at h ⊢
          have hrl : r.length ≤ L := by
            have hlen : (c :: rest).length = pre.length + r.length := by
              rw [hcs]; simp
            have hp1 : 1 ≤ pre.length := by
              rcases pre with _ | ⟨_, _⟩
              · exact absurd rfl hne
              · simp
            simp only [List.length_cons] at hlen hle
            omega
          exact ih r hrl f (t :: acc) ts h
        · rw [he] at h; cases h

/-! ### A parsed token stream has no adjacent literals -/

theorem noAdj_cons_any (t : Tok) (rest : List Tok) (hh : headNotLit rest = true)
    (hr : noAdjToks rest = true) : noAdjToks (t :: rest) = true := by
  cases rest with
  | nil => cases t <;> rfl
  | cons r0 rest' =>
    cases t <;> cases r0 <;> simp only [noAdjToks, headNotLit] at * <;>
      first | exact hr | cases hh

theorem noAdj_cons_nonlit (t : Tok) (rest : List Tok) (ht : ∀ j, ¬ t = Tok.lit j)
    (hr : noAdjToks rest = true) : noAdjToks (t :: rest) = true := by
  cases rest with
  | nil => cases t <;> rfl
  | cons r0 rest' =>
    cases t <;> cases r0 <;> simp only [noAdjToks] at * <;>
      first | exact hr | exact absurd rfl (ht _)

theorem parse_noAdj : ∀ (f : Nat),
    (∀ (ts : List Tok) (v : Json) (r : List Tok), parseVal f ts = some (v, r) →
      noAdjToks r = true → headNotLit r = true → noAdjToks ts = true) ∧
    (∀ (ts : List Tok) (xs : JArr) (r : List Tok), parseArrItems f ts = some (xs, r) →
      noAdjToks r = true → noAdjToks ts = true) ∧
    (∀ (ts : List Tok) (kvs : List (String × Json)) (r : List Tok),
      parseObjItems f ts = some (kvs, r) → noAdjToks r = true → noAdjToks ts = true) := by
  intro f
  induction f with
  | zero =>
    refine ⟨?_, ?_, ?_⟩
    · intro ts v r h; cases h
    · intro ts xs r h; cases h
    · intro ts kvs r h; cases h
  | succ f ih =>
    obtain ⟨ihV, ihA, ihO⟩ := ih
    refine ⟨?_, ?_, ?_⟩
    · intro ts v r h hr hhl
      rw [parseVal.eq_def] at h
      simp only at h
      split at h
      · simp only [Option.some.injEq, Prod.mk.injEq] at h
        obtain ⟨rfl, rfl⟩ := h
        exact noAdj_cons_any _ _ hhl hr
      · simp only [Option.some.injEq, Prod.mk.injEq] at h
        obtain ⟨rfl, rfl⟩ := h
        exact noAdj_cons_nonlit _ _ (by intro j h; cases h)
          (noAdj_cons_nonlit _ _ (by intro j h; cases h) hr)
      · split at h
        · rename_i xs rest2 hA
          simp only [Option.some.injEq, Prod.mk.injEq] at h
          obtain ⟨rfl, rfl⟩ := h
          exact noAdj_cons_nonlit _ _ (by intro j h; cases h) (ihA _ xs _ hA hr)
        · cases h
      · simp only [Option.some.injEq, Prod.mk.injEq] at h
        obtain ⟨rfl, rfl⟩ := h
        exact noAdj_cons_nonlit _ _ (by intro j h; cases h)
          (noAdj_cons_nonlit _ _ (by intro j h; cases h) hr)
      · split at h
        · rename_i kvs rest2 hO
          simp only [Option.some.injEq, Prod.mk.injEq] at h
          obtain ⟨rfl, rfl⟩ := h
          exact noAdj_cons_nonlit _ _ (by intro j h; cases h) (ihO _ kvs _ hO hr)
        · cases h
      · cases h
    · intro ts xs r h hr
      rw [parseArrItems.eq_def] at h
      simp only at h
      rcases hV : parseVal f ts with _ | ⟨v, rest⟩ <;> rw [hV] at h
      · cases h
      · simp only at h
        split at h
        · split at h
          · rename_i xs2 rest3 hA2
            simp only [Option.some.injEq, Prod.mk.injEq] at h
            obtain ⟨rfl, rfl⟩ := h
            have h2 := ihA _ xs2 _ hA2 hr
            exact ihV ts v _ hV (noAdj_cons_nonlit _ _ (by intro j h; cases h) h2) rfl
          · cases h
        · simp only [Option.some.injEq, Prod.mk.injEq] at h
          obtain ⟨rfl, rfl⟩ := h
          exact ihV ts v _ hV (noAdj_cons_nonlit _ _ (by intro j h; cases h) hr) rfl
        · cases h
    · intro ts kvs r h hr
      rw [parseObjItems.eq_def] at h
      simp only at h
      split at h
      · split at h
        · cases h
        · rename_i v rest2 hV
          split at h
          · split at h
            · rename_i kvs2 rest4 hO2
              simp only [Option.some.injEq, Prod.mk.injEq] at h
              obtain ⟨rfl, rfl⟩ := h
              have h2 := ihO _ kvs2 _ hO2 hr
              have h3 := ihV _ v _ hV
                (noAdj_cons_nonlit _ _ (by intro j h; cases h) h2) rfl
              exact noAdj_cons_any _ _ rfl
                (noAdj_cons_nonlit _ _ (by intro j h; cases h) h3)
            · cases h
          · simp only [Option.some.injEq, Prod.mk.injEq] at h
            obtain ⟨rfl, rfl⟩ := h
            have h3 := ihV _ v _ hV
              (noAdj_cons_nonlit _ _ (by intro j h; cases h) hr) rfl
            exact noAdj_cons_any _ _ rfl
              (noAdj_cons_nonlit _ _ (by intro j h; cases h) h3)
          · cases h
      · cases h

theorem parseToks_noAdj (ts : List Tok) (v : Json) (h : parseToks ts = some v) :
    noAdjToks ts = true := by
  rw [parseToks] at h
  rcases hV : parseVal (2 * ts.length + 2) ts with _ | ⟨v2, r⟩ <;> rw [hV] at h
  · cases h
  · cases r with
    | nil => exact (parse_noAdj (2 * ts.length + 2)).1 ts v2 [] hV rfl rfl
    | cons r0 r' => cases h

/-! ### `removeChar` plumbing -/

theorem removeChar_cons_self (c0 : Char) (l : List Char) :
    removeChar c0 (c0 :: l) = removeChar c0 l := by
  simp [removeChar]

theorem removeChar_cons_ne (c0 c : Char) (l : List Char) (h : ¬ c = c0) :
    removeChar c0 (c :: l) = c :: removeChar c0 l := by
  simp [removeChar, h]

theorem removeChar_append (c0 : Char) (a b : List Char) :
    removeChar c0 (a ++ b) = removeChar c0 a ++ removeChar c0 b := by
  simp [removeChar, List.filter_append]

theorem removeChar_keep_cr (l : List Char)
    (hall : l.all (fun c => !(c = '\r') && !(c = '\x00')) = true) :
    removeChar '\r' l = l := by
  rw [removeChar, List.filter_eq_self]
  intro a ha
  have := List.all_eq_true.mp hall a ha
  simp only [Bool.and_eq_true, Bool.not_eq_true', decide_eq_false_iff_not] at this
  simp [this.1]

theorem removeChar_keep_nul (l : List Char)
    (hall : l.all (fun c => !(c = '\r') && !(c = '\x00')) = true) :
    removeChar '\x00' l = l := by
  rw [removeChar, List.filter_eq_self]
  intro a ha
  have := List.all_eq_true.mp hall a ha
  simp only [Bool.and_eq_true, Bool.not_eq_true', decide_eq_false_iff_not] at this
  simp [this.2]

theorem removeChar_all_nil (c0 : Char) (l : List Char)
    (hall : ∀ a ∈ l, a = c0) : removeChar c0 l = [] := by
  rw [removeChar, List.filter_eq_nil_iff]
  intro a ha
  simp [hall a ha]

theorem dropWhile_head_false (p : Char → Bool) :
    ∀ (l : List Char) (d : Char) (r3 : List Char), l.dropWhile p = d :: r3 → p d = false := by
  intro l
  induction l with
  | nil => intro d r3 h; cases h
  | cons a l ih =>
    intro d r3 h
    rw [List.dropWhile_cons] at h
    by_cases hp : p a = true
    · rw [if_pos hp] at h
      exact ih d r3 h
    · rw [if_neg hp] at h
      injection h with h1 _
      subst h1
      exact Bool.eq_false_iff.mpr hp

/-! ### Dropping an all-whitespace tail preserves a successful lex -/

theorem lexGo_drop_pyws_tail : ∀ (N : Nat) (body : List Char), body.length ≤ N →
    ∀ (tail : List Char), tail.all pyWsChar = true →
    ∀ (f : Nat) (acc ts : List Tok), lexGo f (body ++ tail) acc = some ts →
    noAdjToks ts = true →
    ∃ g, lexGo g body acc = some ts := by
  intro N
  induction N with
  | zero =>
    intro body hle tail htail f acc ts h hadj
    have hnil := List.length_eq_zero.mp (Nat.le_zero.mp hle)
    subst hnil
    rw [List.nil_append] at h
    have hts := lexGo_pyws_only f tail htail acc ts h
    refine ⟨1, ?_⟩
    rw [lexGo, show lexStep ([] : List Char) = .done from rfl, hts]
  | succ N ih =>
    intro body hle tail htail f acc ts h hadj
    cases body with
    | nil =>
      rw [List.nil_append] at h
      have hts := lexGo_pyws_only f tail htail acc ts h
      refine ⟨1, ?_⟩
      rw [lexGo, show lexStep ([] : List Char) = .done from rfl, hts]
    | cons c rest =>
      cases f with
      | zero => cases h
      | succ f =>
        rw [List.cons_append, lexGo] at h
        rcases lexStep_cases c (rest ++ tail) with ⟨hw, he⟩ |
          ⟨t, pre, r, he, hcs, hne, hall, hlast, hX⟩ | he
        · rw [he] at h
          obtain ⟨g, hg⟩ := ih rest (by simp only [List.length_cons] at hle; omega)
            tail htail f acc ts h hadj
          refine ⟨g + 1, ?_⟩
          rw [lexGo, lexStep_ws c rest hw]
          exact hg
        · rw [he] at h
          have hcs2 : (c :: rest) ++ tail = pre ++ r := by
            rw [List.cons_append]; exact hcs
          rcases List.append_eq_append_iff.mp hcs2 with ⟨ext, hpre, htl⟩ | ⟨mid, hbody, hr⟩
          · -- the lexeme would spill into the whitespace tail
            rcases List.eq_nil_or_concat ext with rfl | ⟨ext', lastE, rfl⟩
            · -- boundary exact: treat as mid = []
              rw [List.append_nil] at hpre
              rw [List.nil_append] at htl
              have hguard : (∃ j, t = Tok.lit j) → headNoNumExt ([] : List Char) = true :=
                fun _ => rfl
              have hstep2 := hX [] hguard
              rw [List.append_nil] at hstep2
              rw [htl] at htail
              have hts := lexGo_pyws_only f r htail (t :: acc) ts h
              have hginner : lexGo 1 ([] : List Char) (t :: acc) = some ts := by
                rw [lexGo, show lexStep ([] : List Char) = .done from rfl, hts]
              refine ⟨2, ?_⟩
              rw [← hpre, show (2 : Nat) = 1 + 1 from rfl, lexGo, hstep2]
              exact hginner
            · rw [List.concat_eq_append] at hpre htl
              have hlastE : pyWsChar lastE = false := by
                apply hlast
                rw [hpre]
                rw [show (c :: rest) ++ (ext' ++ [lastE]) = ((c :: rest) ++ ext') ++ [lastE]
                  from (List.append_assoc _ _ _).symm]
                exact List.getLast?_concat _
              have hmem : lastE ∈ tail := by
                rw [htl]; simp
              have := List.all_eq_true.mp htail lastE hmem
              rw [hlastE] at this
              cases this
          · -- the lexeme lies inside the body
            have hguard : (∃ j, t = Tok.lit j) → headNoNumExt mid = true := by
              rintro ⟨j, rfl⟩
              cases mid with
              | nil => rfl
              | cons m0 mid' =>
                rw [hr, List.cons_append] at h
                have h2 := headNoNumExt_of_continue _ _ _ _ _ h hadj
                simp only [headNoNumExt] at h2 ⊢
                exact h2
            have hstep2 := hX mid hguard
            rw [← hbody] at hstep2
            have hmidlen : mid.length ≤ N := by
              have hl1 : (c :: rest).length = pre.length + mid.length := by
                rw [hbody]; simp
              have hp1 : 1 ≤ pre.length := by
                rcases pre with _ | ⟨_, _⟩
                · exact absurd rfl hne
                · simp
              simp only [List.length_cons] at hl1 hle
              omega
            rw [hr] at h
            obtain ⟨g, hg⟩ := ih mid hmidlen tail htail f (t :: acc) ts h hadj
            refine ⟨g + 1, ?_⟩
            rw [lexGo, hstep2]
            exact hg
        · rw [he] at h
          cases h

/-! ### Removing carriage returns preserves a successful lex -/

theorem lexGo_removeCR : ∀ (N : Nat) (cs : List Char), cs.length ≤ N →
    ∀ (f : Nat) (acc ts : List Tok), lexGo f cs acc = some ts → noAdjToks ts = true →
    ∃ g, lexGo g (removeChar '\r' cs) acc = some ts := by
  intro N
  induction N with
  | zero =>
    intro cs hle f acc ts h hadj
    have hnil := List.length_eq_zero.mp (Nat.le_zero.mp hle)
    subst hnil
    exact ⟨f, h⟩
  | succ N ih =>
    intro cs hle f acc ts h hadj
    cases cs with
    | nil => exact ⟨f, h⟩
    | cons c rest =>
      cases f with
      | zero => cases h
      | succ f =>
        rw [lexGo] at h
        rcases lexStep_cases c rest with ⟨hw, he⟩ |
          ⟨t, pre, r, he, hcs, hne, hall, hlast, hX⟩ | he
        · rw [he] at h
          obtain ⟨g, hg⟩ := ih rest (by simp only [List.length_cons] at hle; omega)
            f acc ts h hadj
          by_cases hc : c = '\r'
          · subst hc
            rw [removeChar_cons_self]
            exact ⟨g, hg⟩
          · rw [removeChar_cons_ne _ _ _ hc]
            refine ⟨g + 1, ?_⟩
            rw [lexGo, lexStep_ws c _ hw]
            exact hg
        · rw [he] at h
          have hrlen : r.length ≤ N := by
            have hl1 : (c :: rest).length = pre.length + r.length := by
              rw [hcs]; simp
            have hp1 : 1 ≤ pre.length := by
              rcases pre with _ | ⟨_, _⟩
              · exact absurd rfl hne
              · simp
            simp only [List.length_cons] at hl1 hle
            omega
          obtain ⟨g, hg⟩ := ih r hrlen f (t :: acc) ts h hadj
          have hguard : (∃ j, t = Tok.lit j) → headNoNumExt (removeChar '\r' r) = true := by
            rintro ⟨j, rfl⟩
            have hdec : r = r.takeWhile (fun c => c = '\r') ++ r.dropWhile (fun c => c = '\r') :=
              (List.takeWhile_append_dropWhile _ _).symm
            have hws : (r.takeWhile (fun c => c = '\r')).all jsonWs = true := by
              rw [List.all_eq_true]
              intro x hx
              have hx2 := List.mem_takeWhile_imp hx
              simp only [decide_eq_true_eq] at hx2
              subst hx2
              decide
            rw [hdec] at h
            obtain ⟨g2, hg2⟩ := lexGo_ws_prefix _ hws f _ _ _ h
            have hh := headNoNumExt_of_continue _ _ _ _ _ hg2 hadj
            rw [hdec, removeChar_append, removeChar_all_nil _ _ ?_, List.nil_append]
            · cases hdrop : r.dropWhile (fun c => c = '\r') with
              | nil => rfl
              | cons d r3 =>
                have hd := dropWhile_head_false _ _ _ _ hdrop
                simp only [decide_eq_false_iff_not] at hd
                rw [hdrop] at hh
                rw [removeChar_cons_ne _ _ _ hd]
                simp only [headNoNumExt] at hh ⊢
                exact hh
            · intro a ha
              have := List.mem_takeWhile_imp ha
              simpa using this
          have hstep2 := hX (removeChar '\r' r) hguard
          have hpr : removeChar '\r' (c :: rest) = pre ++ removeChar '\r' r := by
            rw [hcs, removeChar_append, removeChar_keep_cr pre hall]
          rw [hpr]
          refine ⟨g + 1, ?_⟩
          rw [lexGo, hstep2]
          exact hg
        · rw [he] at h
          cases h

/-! ### A successfully lexed text contains no NUL character -/

theorem lexGo_no_nul : ∀ (N : Nat) (cs : List Char), cs.length ≤ N →
    ∀ (f : Nat) (acc ts : List Tok), lexGo f cs acc = some ts → '\x00' ∉ cs := by
  intro N
  induction N with
  | zero =>
    intro cs hle f acc ts h
    have hnil := List.length_eq_zero.mp (Nat.le_zero.mp hle)
    subst hnil
    exact List.not_mem_nil _
  | succ N ih =>
    intro cs hle f acc ts h
    cases cs with
    | nil => exact List.not_mem_nil _
    | cons c rest =>
      cases f with
      | zero => cases h
      | succ f =>
        rw [lexGo] at h
        rcases lexStep_cases c rest with ⟨hw, he⟩ |
          ⟨t, pre, r, he, hcs, hne, hall, hlast, hX⟩ | he
        · rw [he] at h
          have hrest := ih rest (by simp only [List.length_cons] at hle; omega) f acc ts h
          intro hmem
          rcases List.mem_cons.mp hmem with heq | hmem2
          · rw [← heq] at hw
            exact absurd hw (by decide)
          · exact hrest hmem2
        · rw [he] at h
          have hrlen : r.length ≤ N := by
            have hl1 : (c :: rest).length = pre.length + r.length := by
              rw [hcs]; simp
            have hp1 : 1 ≤ pre.length := by
              rcases pre with _ | ⟨_, _⟩
              · exact absurd rfl hne
              · simp
            simp only [List.length_cons] at hl1 hle
            omega
          have hr := ih r hrlen f (t :: acc) ts h
          intro hmem
          rw [hcs] at hmem
          rcases List.mem_append.mp hmem with hp | hmem2
          · have := List.all_eq_true.mp hall _ hp
            simp at this
          · exact hr hmem2
        · rw [he] at h
          cases h

/-! ### Assembling the normalizer-transparency theorem -/

theorem removeChar_not_mem (c0 : Char) (l : List Char) (h : c0 ∉ l) :
    removeChar c0 l = l := by
  rw [removeChar, List.filter_eq_self]
  intro a ha
  simp only [Bool.not_eq_true', decide_eq_false_iff_not]
  intro he
  subst he
  exact h ha

theorem prefixRepair_of (cs : List Char) (h2 : headMatches ['{', '"'] cs = true)
    (h3 : headMatches ['{', '"', ','] cs = false) : prefixRepair cs = cs := by
  rcases cs with _ | ⟨a, _ | ⟨b, rest⟩⟩
  · cases h2
  · simp [headMatches] at h2
  · simp only [headMatches, Bool.and_eq_true, decide_eq_true_eq] at h2
    obtain ⟨ha, hb, _⟩ := h2
    subst ha; subst hb
    cases rest with
    | nil => rfl
    | cons x rest' =>
      by_cases hx : x = ','
      · subst hx
        simp [headMatches] at h3
      · simp [prefixRepair, hx]

theorem pyStrip_decomp (cs : List Char) (hhead : ∀ c, cs.head? = some c → pyWsChar c = false) :
    cs = pyStrip cs ++ (cs.reverse.takeWhile pyWsChar).reverse ∧
    ((cs.reverse.takeWhile pyWsChar).reverse).all pyWsChar = true := by
  have hdrop : cs.dropWhile pyWsChar = cs := by
    cases cs with
    | nil => rfl
    | cons c cs' => exact List.dropWhile_cons_of_neg (by simp [hhead c rfl])
  constructor
  · rw [pyStrip, hdrop]
    calc cs = cs.reverse.reverse := (List.reverse_reverse cs).symm
      _ = (cs.reverse.takeWhile pyWsChar ++ cs.reverse.dropWhile pyWsChar).reverse := by
          rw [List.takeWhile_append_dropWhile]
      _ = (cs.reverse.dropWhile pyWsChar).reverse ++ (cs.reverse.takeWhile pyWsChar).reverse := by
          rw [List.reverse_append]
  · rw [List.all_eq_true]
    intro x hx
    rw [List.mem_reverse] at hx
    exact List.mem_takeWhile_imp hx

/-- The normalizer is transparent on a valid JSON text that starts with a
brace and a quote but not with the repaired pattern: the first strict parse
succeeds on the stage-4 text with the same tree the plain parse yields. -/
theorem processFile_transparent (cs : List Char) (v : Json)
    (hp : parseJsonL cs = some v)
    (h2 : headMatches ['{', '"'] cs = true)
    (h3 : headMatches ['{', '"', ','] cs = false) :
    processFile cs = .success v ∧ prefixRepair cs = cs := by
  have hpr := prefixRepair_of cs h2 h3
  rw [parseJsonL] at hp
  rcases hlex : lex cs with _ | ts <;> rw [hlex] at hp
  · cases hp
  · have hadj := parseToks_noAdj ts v hp
    have hhead : ∀ c, cs.head? = some c → pyWsChar c = false := by
      intro c hc
      rcases cs with _ | ⟨a, cs'⟩
      · cases hc
      · simp only [headMatches, Bool.and_eq_true, decide_eq_true_eq] at h2
        simp only [List.head?, Option.some.injEq] at hc
        rw [← hc, ← h2.1]
        decide
    obtain ⟨hdec, htail⟩ := pyStrip_decomp cs hhead
    rw [lex, hdec] at hlex
    obtain ⟨g1, hg1⟩ := lexGo_drop_pyws_tail (pyStrip cs).length (pyStrip cs) le_rfl
      _ htail _ [] ts hlex hadj
    have hnonul := lexGo_no_nul (pyStrip cs).length (pyStrip cs) le_rfl g1 [] ts hg1
    have hnul := removeChar_not_mem '\x00' (pyStrip cs) hnonul
    obtain ⟨g2, hg2⟩ := lexGo_removeCR (pyStrip cs).length (pyStrip cs) le_rfl g1 [] ts hg1 hadj
    have hfin : lex (removeChar '\r' (pyStrip cs)) = some ts :=
      lexGo_enough (removeChar '\r' (pyStrip cs)).length _ le_rfl g2 [] ts hg2
    have hs4 : parseJsonL (stage4 cs) = some v := by
      rw [stage4, hpr, hnul, parseJsonL, hfin, hp]
    refine ⟨?_, hpr⟩
    rw [processFile, hs4]

/-- C3 (amended): for every valid JSON input text that begins with the two
characters `{"` but not with the three-character corruption pattern `{",`,
the Process File handler applies no prefix repair and reports the clean
success outcome carrying exactly the tree of a standard strict JSON parse
of the input. -/
theorem valid_json_prefix_amended (cs : List Char) (v : Json)
    (hp : parseJsonL cs = some v)
    (h2 : headMatches ['{', '"'] cs = true)
    (h3 : headMatches ['{', '"', ','] cs = false) :
    processFile cs = .success v ∧ prefixRepair cs = cs :=
  processFile_transparent cs v hp h2 h3

/-- Closed instance of `valid_json_prefix_amended` at the concrete text
`{"a":1}`, discharging every hypothesis by computation. -/
theorem valid_json_prefix_amended_witness :
    processFile ['{', '"', 'a', '"', ':', '1', '}']
        = .success (Json.mkObj [("a", Json.num (.fin false "1" "" ""))])
      ∧ prefixRepair ['{', '"', 'a', '"', ':', '1', '}']
        = ['{', '"', 'a', '"', ':', '1', '}'] :=
  valid_json_prefix_amended ['{', '"', 'a', '"', ':', '1', '}']
    (Json.mkObj [("a", Json.num (.fin false "1" "" ""))]) rfl rfl rfl

end Sire
